import Mathlib

/-!
Verification development for the dialogue typing and layout engine of the
repository under review.  The definitions below are shallow embeddings of
the TypeScript sources:

* the token scanner of src/utils/dialogueParser.ts (function parseLine);
* the line layout algorithm of DialogueLineManager.updateLineLayout, in the
  revision that performs hard character breaking of oversized words;
* the visibility replay of DialogueLineManager.updateLineVisibility;
* the scroll controller of ScrollManager.ts;
* the orchestrator DialogueManager (update, advanceTyping, resize,
  appendMessage, forceScrollToBottom).

Strings are modelled as lists of characters, pixel quantities as rationals,
and the external text measurement of the rendering library as an
environment parameter giving a per character advance width.
-/

namespace MagicWords

/-- Parsed segment of a dialogue line, mirroring the DialoguePart type of
dialogueParser.ts.  The parser only ever emits text and emoji segments; the
other tags exist in the source type and are kept for fidelity. -/
inductive DialoguePartC where
  | text (content : List Char)
  | emoji (name : List Char)
  | avatar (content : List Char)
  | missingEmoji (content : List Char)
deriving DecidableEq, Repr

/-- Split a character list at the first occurrence of the delimiter,
returning the characters before it and the characters after it.  Models the
behaviour of a greedy negated character class followed by the closing
delimiter in the scanning pattern of parseLine. -/
def splitAtChar (d : Char) : List Char → Option (List Char × List Char)
  | [] => none
  | x :: xs =>
    if x = d then some ([], xs)
    else
      match splitAtChar d xs with
      | some (pre, post) => some (x :: pre, post)
      | none => none

/-- Try to match one embedded token at the current scan position.  The
combined pattern of parseLine accepts three delimiter grammars; at a fixed
position at most one of them can start, determined by the opening
character.  Returns the token name, the raw source characters consumed and
the remaining input. -/
def matchToken : List Char → Option (List Char × List Char × List Char)
  | [] => none
  | c :: cs =>
    if c = '{' then
      match splitAtChar '}' cs with
      | some (pre, post) => if pre = [] then none else some (pre, '{' :: (pre ++ ['}']), post)
      | none => none
    else if c = ':' then
      match splitAtChar ':' cs with
      | some (pre, post) => if pre = [] then none else some (pre, ':' :: (pre ++ [':']), post)
      | none => none
    else if c = '[' then
      match splitAtChar ']' cs with
      | some (pre, post) => if pre = [] then none else some (pre, '[' :: (pre ++ [']']), post)
      | none => none
    else none

/-- Pending literal text flushed into a text segment, as parseLine pushes
the preceding text before each token match.  The accumulator is kept
reversed. -/
def flushText (acc : List Char) : List DialoguePartC :=
  if acc = [] then [] else [DialoguePartC.text acc.reverse]

/-- Fuel indexed scanning loop of parseLine: at every position either a
token matches and an emoji segment is emitted, or the character is added to
the pending text.  One unit of fuel is spent per consumed character, so any
fuel of at least the input length gives the loop of the source. -/
def scanPartsF : Nat → List Char → List Char → List DialoguePartC
  | _, [], acc => flushText acc
  | 0, cs, acc => flushText (cs.reverse ++ acc)
  | fuel + 1, c :: cs, acc =>
    match matchToken (c :: cs) with
    | some (name, _, rest) => flushText acc ++ DialoguePartC.emoji name :: scanPartsF fuel rest []
    | none => scanPartsF fuel cs (c :: acc)

/-- Embedding of parseLine from dialogueParser.ts: empty input yields a
single empty text segment, otherwise the input is scanned for embedded
tokens, and an empty scan result is replaced by a single empty text
segment. -/
def parseLine (t : List Char) : List DialoguePartC :=
  if t = [] then [DialoguePartC.text []]
  else
    let parts := scanPartsF t.length t []
    if parts = [] then [DialoguePartC.text []] else parts

/-- Instrumented scan: identical control flow to scanPartsF, but every
emitted segment is paired with the raw source characters it consumed.  Used
to state the reconstruction property of the scanner. -/
def scanRawF : Nat → List Char → List Char → List (DialoguePartC × List Char)
  | _, [], acc => if acc = [] then [] else [(DialoguePartC.text acc.reverse, acc.reverse)]
  | 0, cs, acc =>
    if cs.reverse ++ acc = [] then []
    else [(DialoguePartC.text (cs.reverse ++ acc).reverse, (cs.reverse ++ acc).reverse)]
  | fuel + 1, c :: cs, acc =>
    match matchToken (c :: cs) with
    | some (name, raw, rest) =>
      (if acc = [] then [] else [(DialoguePartC.text acc.reverse, acc.reverse)]) ++
        (DialoguePartC.emoji name, raw) :: scanRawF fuel rest []
    | none => scanRawF fuel cs (c :: acc)

/-- Instrumented parseLine: segments paired with the raw characters they
consumed. -/
def parseLineR (t : List Char) : List (DialoguePartC × List Char) :=
  if t = [] then [(DialoguePartC.text [], [])] else scanRawF t.length t []

/-- Concatenation of the raw characters of an instrumented scan result. -/
def rawConcat (l : List (DialoguePartC × List Char)) : List Char :=
  l.foldr (fun p r => p.2 ++ r) []

/-- The raw characters of a token of the grammar: one of the three
delimiter forms around a non empty name that contains no closing
delimiter. -/
def IsTokenRaw (raw name : List Char) : Prop :=
  name ≠ [] ∧
    ((raw = '{' :: (name ++ ['}']) ∧ '}' ∉ name) ∨
     (raw = ':' :: (name ++ [':']) ∧ ':' ∉ name) ∨
     (raw = '[' :: (name ++ [']']) ∧ ']' ∉ name))

/-- Relation between a segment and the raw characters it consumed: a text
segment consumes exactly its content, an emoji segment consumes a
delimited token carrying its name. -/
def PartRawOK : DialoguePartC × List Char → Prop
  | (DialoguePartC.text c, raw) => raw = c
  | (DialoguePartC.emoji n, raw) => IsTokenRaw raw n
  | _ => False

theorem splitAtChar_eq {d : Char} :
    ∀ {l pre post : List Char}, splitAtChar d l = some (pre, post) →
      l = pre ++ d :: post ∧ d ∉ pre ∧ post.length < l.length := by
  intro l
  induction l with
  | nil => intro pre post h; simp [splitAtChar] at h
  | cons x xs ih =>
    intro pre post h
    by_cases hx : x = d
    · simp [splitAtChar, hx] at h
      obtain ⟨h1, h2⟩ := h
      subst h1; subst h2
      simp [hx]
    · simp only [splitAtChar, if_neg hx] at h
      cases hsp : splitAtChar d xs with
      | none => rw [hsp] at h; simp at h
      | some pr =>
        obtain ⟨pre', post'⟩ := pr
        rw [hsp] at h
        simp at h
        obtain ⟨h1, h2⟩ := h
        obtain ⟨hl, hnm, hlen⟩ := ih hsp
        subst h2
        constructor
        · rw [← h1]; simp [hl]
        · constructor
          · rw [← h1]
            intro hmem
            rcases List.mem_cons.mp hmem with h | h
            · exact hx h.symm
            · exact hnm h
          · simpa using Nat.lt_succ_of_lt hlen

theorem matchToken_some :
    ∀ {l name raw rest : List Char}, matchToken l = some (name, raw, rest) →
      l = raw ++ rest ∧ IsTokenRaw raw name ∧ rest.length < l.length := by
  intro l name raw rest h
  match l with
  | [] => simp [matchToken] at h
  | c :: cs =>
    simp only [matchToken] at h
    by_cases h1 : c = '{'
    · rw [if_pos h1] at h
      cases hsp : splitAtChar '}' cs with
      | none => rw [hsp] at h; simp at h
      | some pr =>
        obtain ⟨pre, post⟩ := pr
        rw [hsp] at h
        by_cases hpre : pre = []
        · simp [hpre] at h
        · simp [hpre] at h
          obtain ⟨hn, hr, hrest⟩ := h
          obtain ⟨hl, hnm, hlen⟩ := splitAtChar_eq hsp
          subst hn; subst hr; subst hrest; subst h1
          refine ⟨by simp [hl], ⟨hpre, Or.inl ⟨rfl, hnm⟩⟩, by simpa using Nat.lt_succ_of_lt hlen⟩
    · rw [if_neg h1] at h
      by_cases h2 : c = ':'
      · rw [if_pos h2] at h
        cases hsp : splitAtChar ':' cs with
        | none => rw [hsp] at h; simp at h
        | some pr =>
          obtain ⟨pre, post⟩ := pr
          rw [hsp] at h
          by_cases hpre : pre = []
          · simp [hpre] at h
          · simp [hpre] at h
            obtain ⟨hn, hr, hrest⟩ := h
            obtain ⟨hl, hnm, hlen⟩ := splitAtChar_eq hsp
            subst hn; subst hr; subst hrest; subst h2
            refine ⟨by simp [hl], ⟨hpre, Or.inr (Or.inl ⟨rfl, hnm⟩)⟩,
              by simpa using Nat.lt_succ_of_lt hlen⟩
      · rw [if_neg h2] at h
        by_cases h3 : c = '['
        · rw [if_pos h3] at h
          cases hsp : splitAtChar ']' cs with
          | none => rw [hsp] at h; simp at h
          | some pr =>
            obtain ⟨pre, post⟩ := pr
            rw [hsp] at h
            by_cases hpre : pre = []
            · simp [hpre] at h
            · simp [hpre] at h
              obtain ⟨hn, hr, hrest⟩ := h
              obtain ⟨hl, hnm, hlen⟩ := splitAtChar_eq hsp
              subst hn; subst hr; subst hrest; subst h3
              refine ⟨by simp [hl], ⟨hpre, Or.inr (Or.inr ⟨rfl, hnm⟩)⟩,
                by simpa using Nat.lt_succ_of_lt hlen⟩
        · rw [if_neg h3] at h; simp at h

theorem scanRawF_map_fst :
    ∀ (fuel : Nat) (cs acc : List Char), cs.length ≤ fuel →
      (scanRawF fuel cs acc).map Prod.fst = scanPartsF fuel cs acc := by
  intro fuel
  induction fuel with
  | zero =>
    intro cs acc h
    have hcs : cs = [] := List.eq_nil_of_length_eq_zero (Nat.le_zero.mp h)
    subst hcs
    by_cases hacc : acc = [] <;> simp [scanRawF, scanPartsF, flushText, hacc]
  | succ n ih =>
    intro cs acc h
    match cs with
    | [] =>
      by_cases hacc : acc = [] <;> simp [scanRawF, scanPartsF, flushText, hacc]
    | c :: cs' =>
      simp only [scanRawF, scanPartsF]
      cases hmt : matchToken (c :: cs') with
      | none =>
        exact ih cs' (c :: acc) (Nat.le_of_succ_le_succ (by simpa using h))
      | some t =>
        obtain ⟨name, raw, rest⟩ := t
        have hlen : rest.length < cs'.length + 1 := by
          simpa using (matchToken_some hmt).2.2
        have hrest : rest.length ≤ n := by
          have := Nat.le_of_succ_le_succ (by simpa using h)
          omega
        by_cases hacc : acc = [] <;>
          simp [hacc, flushText, ih rest [] hrest]

theorem scanRawF_concat :
    ∀ (fuel : Nat) (cs acc : List Char), cs.length ≤ fuel →
      rawConcat (scanRawF fuel cs acc) = acc.reverse ++ cs := by
  intro fuel
  induction fuel with
  | zero =>
    intro cs acc h
    have hcs : cs = [] := List.eq_nil_of_length_eq_zero (Nat.le_zero.mp h)
    subst hcs
    by_cases hacc : acc = [] <;> simp [scanRawF, rawConcat, hacc]
  | succ n ih =>
    intro cs acc h
    match cs with
    | [] =>
      by_cases hacc : acc = [] <;> simp [scanRawF, rawConcat, hacc]
    | c :: cs' =>
      simp only [scanRawF]
      cases hmt : matchToken (c :: cs') with
      | none =>
        have := ih cs' (c :: acc) (Nat.le_of_succ_le_succ (by simpa using h))
        rw [this]
        simp
      | some t =>
        obtain ⟨name, raw, rest⟩ := t
        obtain ⟨hsplit, _, hlt⟩ := matchToken_some hmt
        have hrest : rest.length ≤ n := by
          have h1 : rest.length < cs'.length + 1 := by simpa using hlt
          have h2 := Nat.le_of_succ_le_succ (by simpa using h)
          omega
        have hrec := ih rest [] hrest
        by_cases hacc : acc = [] <;>
          simp [hacc, rawConcat, hrec, ← hsplit] <;>
          simp [rawConcat] at hrec <;>
          simp [hrec, ← hsplit]

theorem scanRawF_ok :
    ∀ (fuel : Nat) (cs acc p), p ∈ scanRawF fuel cs acc → PartRawOK p := by
  intro fuel
  induction fuel with
  | zero =>
    intro cs acc p hp
    match cs with
    | [] =>
      by_cases hacc : acc = [] <;> simp [scanRawF, hacc] at hp
      subst hp; simp [PartRawOK]
    | c :: cs' =>
      simp [scanRawF] at hp
      subst hp; simp [PartRawOK]
  | succ n ih =>
    intro cs acc p hp
    match cs with
    | [] =>
      by_cases hacc : acc = [] <;> simp [scanRawF, hacc] at hp
      subst hp; simp [PartRawOK]
    | c :: cs' =>
      simp only [scanRawF] at hp
      cases hmt : matchToken (c :: cs') with
      | none =>
        rw [hmt] at hp
        exact ih cs' (c :: acc) p hp
      | some t =>
        obtain ⟨name, raw, rest⟩ := t
        rw [hmt] at hp
        rcases List.mem_append.mp hp with hl | hr
        · by_cases hacc : acc = [] <;> simp [hacc] at hl
          subst hl; simp [PartRawOK]
        · rcases List.mem_cons.mp hr with he | hm
          · subst he
            exact (matchToken_some hmt).2.1
          · exact ih rest [] p hm

theorem scanPartsF_ne_nil :
    ∀ (fuel : Nat) (cs acc : List Char), cs ≠ [] ∨ acc ≠ [] →
      scanPartsF fuel cs acc ≠ [] := by
  intro fuel
  induction fuel with
  | zero =>
    intro cs acc h
    match cs with
    | [] =>
      simp only [scanPartsF, flushText]
      rcases h with h | h
      · exact absurd rfl h
      · simp [h]
    | c :: cs' =>
      simp [scanPartsF, flushText]
  | succ n ih =>
    intro cs acc h
    match cs with
    | [] =>
      simp only [scanPartsF, flushText]
      rcases h with h | h
      · exact absurd rfl h
      · simp [h]
    | c :: cs' =>
      simp only [scanPartsF]
      cases hmt : matchToken (c :: cs') with
      | none => exact ih cs' (c :: acc) (Or.inr (by simp))
      | some t =>
        obtain ⟨name, raw, rest⟩ := t
        simp

/-- C3: parseLine is total and never returns an empty segment list; empty
input yields exactly one empty text segment; for every input the segments
correspond one to one to a decomposition of the input into literal text
runs and delimited tokens, so the text segment contents, concatenated in
order, are exactly the characters of the input that are not part of a
token, with original spacing preserved. -/
theorem parseLine_reconstruction (t : List Char) :
    parseLine t ≠ [] ∧
    parseLine t = (parseLineR t).map Prod.fst ∧
    rawConcat (parseLineR t) = t ∧
    (∀ p ∈ parseLineR t, PartRawOK p) ∧
    parseLine [] = [DialoguePartC.text []] := by
  refine ⟨?_, ?_, ?_, ?_, rfl⟩
  · by_cases ht : t = []
    · simp [parseLine, ht]
    · simp only [parseLine, if_neg ht]
      have hne := scanPartsF_ne_nil t.length t [] (Or.inl ht)
      simp [hne]
  · by_cases ht : t = []
    · simp [parseLine, parseLineR, ht]
    · simp only [parseLine, parseLineR, if_neg ht]
      have hne := scanPartsF_ne_nil t.length t [] (Or.inl ht)
      rw [scanRawF_map_fst t.length t [] (le_refl _)]
      simp [hne]
  · by_cases ht : t = []
    · simp [parseLineR, rawConcat, ht]
    · simp only [parseLineR, if_neg ht]
      simpa using scanRawF_concat t.length t [] (le_refl _)
  · intro p hp
    by_cases ht : t = []
    · simp [parseLineR, ht] at hp
      subst hp; simp [PartRawOK]
    · simp only [parseLineR, if_neg ht] at hp
      exact scanRawF_ok t.length t [] p hp

/-! ### Scroll controller (ScrollManager.ts) -/

/-- State of the scroll controller.  The mask height stands for the height
of the masking rectangle the controller reads through its reference to the
mask graphics; the pending resume flag models a scheduled timeout that will
clear the pause flag when it fires. -/
structure ScrollState where
  currentScrollY : ℚ
  targetScrollY : ℚ
  dialogueContentHeight : ℚ
  maskHeight : ℚ
  isPointerDown : Bool
  lastPointerY : ℚ
  isScrollingPaused : Bool
  hasPendingResume : Bool
deriving DecidableEq, Repr

/-- Fresh controller state right after construction. -/
def initScroll (maskHeight : ℚ) : ScrollState :=
  ⟨0, 0, 0, maskHeight, false, 0, false, false⟩

/-- Maximum scroll distance: content height minus visible mask height,
never negative. -/
def getMaxScroll (s : ScrollState) : ℚ :=
  max 0 (s.dialogueContentHeight - s.maskHeight)

/-- pauseAutoScroll: raise the pause flag and cancel a pending resume
timeout. -/
def pauseAutoScroll (s : ScrollState) : ScrollState :=
  { s with isScrollingPaused := true, hasPendingResume := false }

/-- resumeAutoScrollAfterDelay: replace any pending resume timeout with a
fresh one. -/
def resumeAutoScrollAfterDelay (s : ScrollState) : ScrollState :=
  { s with hasPendingResume := true }

/-- The scheduled resume timeout fires: clear the pause flag. -/
def resumeTimerFire (s : ScrollState) : ScrollState :=
  if s.hasPendingResume then
    { s with isScrollingPaused := false, hasPendingResume := false }
  else s

/-- onPointerDown: start a drag and pause auto scrolling. -/
def onPointerDown (y : ℚ) (s : ScrollState) : ScrollState :=
  pauseAutoScroll { s with isPointerDown := true, lastPointerY := y }

/-- onPointerMove: while dragging, shift the target by the pointer delta
and clamp it into the valid scroll interval. -/
def onPointerMove (y : ℚ) (s : ScrollState) : ScrollState :=
  if s.isPointerDown then
    let t := s.targetScrollY + (y - s.lastPointerY)
    { s with targetScrollY := max (min t 0) (-(getMaxScroll s)), lastPointerY := y }
  else s

/-- onPointerUp: end the drag and schedule the resumption of auto
scrolling. -/
def onPointerUp (s : ScrollState) : ScrollState :=
  if s.isPointerDown then
    resumeAutoScrollAfterDelay { s with isPointerDown := false }
  else s

/-- updateScroll: exponential smoothing of the current offset toward the
target, snapping when the residual is below one tenth. -/
def updateScroll (s : ScrollState) : ScrollState :=
  let d := s.targetScrollY - s.currentScrollY
  { s with currentScrollY :=
      if |d| < 1/10 then s.targetScrollY else s.currentScrollY + d * (1/10) }

/-- scrollToBottom: target the bottom unless paused by interaction. -/
def scrollToBottom (s : ScrollState) : ScrollState :=
  if s.isScrollingPaused then s
  else { s with targetScrollY := -(getMaxScroll s) }

/-- updateContentHeight: record the new content height, re-clamp the
target, then scroll to the bottom when not paused. -/
def updateContentHeight (h : ℚ) (s : ScrollState) : ScrollState :=
  let s1 := { s with dialogueContentHeight := h }
  let s2 := { s1 with targetScrollY := max (min s1.targetScrollY 0) (-(getMaxScroll s1)) }
  if s2.isScrollingPaused then s2 else scrollToBottom s2

/-- scrollToPosition: target a position one third from the top of the
mask, clamped, then pause and schedule a resume. -/
def scrollToPosition (pos : ℚ) (s : ScrollState) : ScrollState :=
  let targetY := -pos + s.maskHeight / 3
  let s1 := { s with targetScrollY := max (min targetY 0) (-(getMaxScroll s)) }
  resumeAutoScrollAfterDelay (pauseAutoScroll s1)

/-- States of the scroll controller reachable from construction through
its operations. -/
inductive ScrollReachable (mh : ℚ) : ScrollState → Prop where
  | init : ScrollReachable mh (initScroll mh)
  | down (y : ℚ) (s : ScrollState) : ScrollReachable mh s →
      ScrollReachable mh (onPointerDown y s)
  | move (y : ℚ) (s : ScrollState) : ScrollReachable mh s →
      ScrollReachable mh (onPointerMove y s)
  | up (s : ScrollState) : ScrollReachable mh s →
      ScrollReachable mh (onPointerUp s)
  | tick (s : ScrollState) : ScrollReachable mh s →
      ScrollReachable mh (updateScroll s)
  | bottom (s : ScrollState) : ScrollReachable mh s →
      ScrollReachable mh (scrollToBottom s)
  | content (h : ℚ) (s : ScrollState) : ScrollReachable mh s →
      ScrollReachable mh (updateContentHeight h s)
  | position (p : ℚ) (s : ScrollState) : ScrollReachable mh s →
      ScrollReachable mh (scrollToPosition p s)
  | timer (s : ScrollState) : ScrollReachable mh s →
      ScrollReachable mh (resumeTimerFire s)

/-- The clamping invariant of the scroll target. -/
def ScrollInv (s : ScrollState) : Prop :=
  -(getMaxScroll s) ≤ s.targetScrollY ∧ s.targetScrollY ≤ 0

theorem getMaxScroll_nonneg (s : ScrollState) : 0 ≤ getMaxScroll s :=
  le_max_left 0 _

theorem clamp_mem (t M : ℚ) (hM : 0 ≤ M) :
    -M ≤ max (min t 0) (-M) ∧ max (min t 0) (-M) ≤ 0 :=
  ⟨le_max_right _ _, max_le (min_le_right _ _) (by linarith)⟩

theorem updateContentHeight_fields (h : ℚ) (s : ScrollState) :
    (updateContentHeight h s).targetScrollY =
      (if s.isScrollingPaused then
        max (min s.targetScrollY 0) (-(max 0 (h - s.maskHeight)))
      else -(max 0 (h - s.maskHeight))) ∧
    (updateContentHeight h s).dialogueContentHeight = h ∧
    (updateContentHeight h s).maskHeight = s.maskHeight := by
  unfold updateContentHeight scrollToBottom getMaxScroll
  split_ifs <;> simp_all

theorem scrollToBottom_fields (s : ScrollState) :
    (scrollToBottom s).targetScrollY =
      (if s.isScrollingPaused then s.targetScrollY else -(getMaxScroll s)) ∧
    (scrollToBottom s).dialogueContentHeight = s.dialogueContentHeight ∧
    (scrollToBottom s).maskHeight = s.maskHeight := by
  unfold scrollToBottom
  split_ifs <;> simp_all

/-- C6: every reachable scroll state keeps the target offset inside the
interval determined by content height and viewport (mask) height; in
particular every mutating operation (drag move, content height update,
scroll to bottom, scroll to position) leaves the target clamped. -/
theorem scroll_target_clamped (mh : ℚ) (s : ScrollState)
    (h : ScrollReachable mh s) : ScrollInv s := by
  induction h with
  | init =>
    constructor
    · have : (0:ℚ) ≤ getMaxScroll (initScroll mh) := getMaxScroll_nonneg _
      simp only [initScroll] at *
      linarith
    · simp [initScroll]
  | down y s _ ih =>
    simpa [ScrollInv, onPointerDown, pauseAutoScroll, getMaxScroll] using ih
  | move y s _ ih =>
    simp only [ScrollInv, onPointerMove]
    split
    · exact clamp_mem _ _ (getMaxScroll_nonneg s)
    · exact ih
  | up s _ ih =>
    simp only [ScrollInv, onPointerUp]
    split
    · simpa [resumeAutoScrollAfterDelay, getMaxScroll] using ih
    · exact ih
  | tick s _ ih =>
    simpa [ScrollInv, updateScroll, getMaxScroll] using ih
  | bottom s _ ih =>
    obtain ⟨h1, h2, h3⟩ := scrollToBottom_fields s
    have hM := getMaxScroll_nonneg s
    constructor
    · rw [h1]
      simp only [getMaxScroll, h2, h3]
      split_ifs
      · exact ih.1
      · exact le_refl _
    · rw [h1]
      split_ifs
      · exact ih.2
      · linarith
  | content h s _ ih =>
    obtain ⟨h1, h2, h3⟩ := updateContentHeight_fields h s
    have hM : (0:ℚ) ≤ max 0 (h - s.maskHeight) := le_max_left _ _
    have hcl := clamp_mem s.targetScrollY _ hM
    constructor
    · rw [h1]
      simp only [getMaxScroll, h2, h3]
      split_ifs
      · exact hcl.1
      · exact le_refl _
    · rw [h1]
      split_ifs
      · exact hcl.2
      · linarith
  | position p s _ ih =>
    simp only [ScrollInv, scrollToPosition, resumeAutoScrollAfterDelay, pauseAutoScroll]
    simp [getMaxScroll]
  | timer s _ ih =>
    simp only [ScrollInv, resumeTimerFire]
    split
    · simpa [getMaxScroll] using ih
    · exact ih

/-- Witness for C6: a concrete reachable state, obtained by dragging after
a content height update, satisfies the clamping invariant. -/
theorem scroll_target_clamped_witness :
    ScrollInv (onPointerMove 40 (onPointerDown 100
      (updateContentHeight 900 (initScroll 300)))) :=
  scroll_target_clamped 300 _
    (ScrollReachable.move 40 _ (ScrollReachable.down 100 _
      (ScrollReachable.content 900 _ ScrollReachable.init)))

/-! ### Line layout engine (DialogueLineManager.ts, hard break revision) -/

/-- Environment of the layout engine: external text measurement, style
configuration and texture availability.  The rendering library`s text
measurement is modelled by a per character advance width; a measured text
width is the sum of its character widths times the applied scale. -/
structure Env where
  charW : Char → ℚ
  charTextBaseH : List Char → ℚ
  textFontSize : ℚ
  charFontSize : ℚ
  emojiSize : ℚ
  avatarSize : ℚ
  emojiLeft : Bool
  emojiAvail : List Char → Bool
  avatarAvail : List Char → Bool
  lineSpacing : ℚ
  dialoguePadding : ℚ
  typingSpeed : ℚ

/-- Unscaled measured width of a character run. -/
def measureBase (env : Env) (cs : List Char) : ℚ :=
  (cs.map env.charW).sum

/-- getLineHeight: maximum of the two font sizes and the emoji size. -/
def getLineHeight (env : Env) : ℚ :=
  max (max env.textFontSize env.charFontSize) env.emojiSize

/-- Sum of the character codes of a speaker name, as computed by the
nameHash loop of updateLineLayout. -/
def nameHash (s : List Char) : Nat :=
  (s.map Char.toNat).sum

/-- The fixed bubble color palette of updateLineLayout. -/
def speakerColors : List Nat :=
  [0x3498db, 0x2ecc71, 0xe74c3c, 0xf39c12, 0x9b59b6, 0x1abc9c]

/-- Kind of the display object created for one parsed segment: a text node
for text segments, a sprite for emoji segments with a resolvable texture,
and a bracketed fallback text node otherwise. -/
inductive PObjKind where
  | textObj
  | sprite
  | fallbackText
deriving DecidableEq, Repr

/-- Semantics of the falsy-or-default idiom of the source on an optional
string: a missing or empty value is replaced by the default. -/
def falsyOr (o : Option (List Char)) (d : List Char) : List Char :=
  match o with
  | none => d
  | some s => if s = [] then d else s

/-- Default speaker name of createLineObjects. -/
def unknownName : List Char := "Unknown".toList

/-- Display object kind produced by EmojiManager.createEmojiObject and the
text branch of createLineObjects, abstracting the texture lookup cascade
into an availability predicate. -/
def objKindFor (env : Env) : DialoguePartC → PObjKind
  | DialoguePartC.text _ => PObjKind.textObj
  | DialoguePartC.emoji n =>
    if n = [] then PObjKind.fallbackText
    else if env.emojiAvail n then PObjKind.sprite else PObjKind.fallbackText
  | _ => PObjKind.fallbackText

/-- Mutable attributes of the display objects that updateLineLayout writes
(scales of text nodes, sizes of sprites).  Threaded through the layout
call to state idempotence over the mutated objects. -/
structure ObjState where
  charTextScale : ℚ
  partSizes : List (ℚ × ℚ)
deriving DecidableEq, Repr

/-- Display objects and parsed data of one dialogue line. -/
structure LineRenderData where
  speakerName : Option (List Char)
  characterText : List Char
  parts : List DialoguePartC
  partObjects : List PObjKind
  objState : ObjState
deriving DecidableEq, Repr

/-- JavaScript style split on a single space: empty pieces are preserved
and the empty string splits into one empty piece. -/
def splitOnSpaceAux : List Char → List Char → List (List Char)
  | [], acc => [acc.reverse]
  | c :: cs, acc =>
    if c = ' ' then acc.reverse :: splitOnSpaceAux cs []
    else splitOnSpaceAux cs (c :: acc)

/-- Split a character run into words on spaces. -/
def splitOnSpace (cs : List Char) : List (List Char) :=
  splitOnSpaceAux cs []

/-- Derived per call quantities of updateLineLayout. -/
structure LayoutCtx where
  scaleFactor : ℚ
  bubblePadding : ℚ
  maxContentWidth : ℚ
  spaceWidth : ℚ
  lineH : ℚ
  emojiW : ℚ
deriving DecidableEq, Repr

/-- Responsive scale factor, clamped between four fifths and one. -/
def layoutScale (aw : ℚ) : ℚ :=
  min 1 (max (8/10) (aw / 800))

/-- Inner bubble padding. -/
def layoutBubblePadding (aw : ℚ) : ℚ :=
  15 * layoutScale aw

/-- Maximum content width of the bubble: three quarters of the available
width capped at 450, minus padding on both sides, floored at 200. -/
def layoutMaxContentWidth (aw : ℚ) : ℚ :=
  max (min (aw * (3/4)) 450 - layoutBubblePadding aw * 2) 200

/-- All derived layout quantities for one call. -/
def layoutCtx (env : Env) (aw : ℚ) : LayoutCtx :=
  ⟨layoutScale aw, layoutBubblePadding aw, layoutMaxContentWidth aw,
   5 * layoutScale aw, getLineHeight env * layoutScale aw,
   env.emojiSize * layoutScale aw⟩

/-- Scaled measured width of a character run, as read from a temporary
text node scaled by the current scale factor. -/
def measureW (env : Env) (ctx : LayoutCtx) (cs : List Char) : ℚ :=
  ctx.scaleFactor * measureBase env cs

/-- A node placed by the word wrapping walk, in content container
coordinates: a word (or hard break piece) with its characters, or an
inline emoji sprite. -/
structure Placed where
  isEmoji : Bool
  chars : List Char
  x : ℚ
  y : ℚ
  w : ℚ
deriving DecidableEq, Repr

/-- Mutable state of the word wrapping walk: pen position, running
maximum line width and nodes placed so far. -/
structure WalkSt where
  curX : ℚ
  curY : ℚ
  lineW : ℚ
  placed : List Placed
deriving DecidableEq, Repr

/-- Advance the pen to the start of the next wrapped line. -/
def wrapLine (ctx : LayoutCtx) (st : WalkSt) : WalkSt :=
  { st with curX := ctx.bubblePadding, curY := st.curY + ctx.lineH + 2 * ctx.scaleFactor }

/-- First candidate length at which the prefix fit check fails, scanning
lengths upward from the given start, mirroring the inner for loop of the
hard break branch. -/
def firstNonFitGo (fits : Nat → Bool) : Nat → Nat → Option Nat
  | _, 0 => none
  | k, n + 1 => if fits k then firstNonFitGo fits (k + 1) n else some k

/-- Number of characters of the current remainder placed by one hard break
iteration: one less than the first failing prefix length (at least one),
or the whole remainder plus one when every prefix fits. -/
def charsFitOf (fits : Nat → Bool) (len : Nat) : Nat :=
  match firstNonFitGo fits 1 len with
  | some k0 => max 1 (k0 - 1)
  | none => len + 1

/-- One hard break placement loop: repeatedly take the prefix that fits,
place it, and continue with the remainder on a new line.  Fuel is spent
one unit per placed piece; any fuel at least the word length suffices
because every iteration consumes at least one character. -/
def hardBreakLoop (env : Env) (ctx : LayoutCtx) : Nat → List Char → WalkSt → WalkSt
  | 0, _, st => st
  | _ + 1, [], st => st
  | fuel + 1, remaining, st =>
    let len := remaining.length
    let fits := fun k => decide (measureW env ctx (remaining.take k) + 2 ≤ ctx.maxContentWidth)
    let m := charsFitOf fits len
    let seg := remaining.take m
    let segW := measureW env ctx seg
    let st1 :=
      if ctx.bubblePadding < st.curX ∧ ctx.maxContentWidth < st.curX + segW + 2
      then wrapLine ctx st else st
    let st2 := { st1 with curX := st1.curX + segW,
                          placed := st1.placed ++ [⟨false, seg, st1.curX, st1.curY, segW⟩] }
    let remaining2 := remaining.drop m
    let st3 := if remaining2 = [] then st2 else wrapLine ctx st2
    let st4 := { st3 with lineW := max st3.lineW st3.curX }
    hardBreakLoop env ctx fuel remaining2 st4

/-- Place one word: hard break it when it is wider than the content width
and longer than ten characters, otherwise wrap to a new line if needed and
place it whole. -/
def placeWord (env : Env) (ctx : LayoutCtx) (word : List Char) (st : WalkSt) : WalkSt :=
  let wordWidth := measureW env ctx word
  if ctx.maxContentWidth < wordWidth + 2 ∧ 10 < word.length then
    hardBreakLoop env ctx word.length word st
  else
    let st1 :=
      if ctx.bubblePadding < st.curX ∧ ctx.maxContentWidth < st.curX + wordWidth + 2
      then wrapLine ctx st else st
    { st1 with curX := st1.curX + wordWidth + ctx.spaceWidth,
               lineW := max st1.lineW (st1.curX + wordWidth),
               placed := st1.placed ++ [⟨false, word, st1.curX, st1.curY, wordWidth⟩] }

/-- Place all words of a text segment in order. -/
def placeWords (env : Env) (ctx : LayoutCtx) (ws : List (List Char)) (st : WalkSt) : WalkSt :=
  ws.foldl (fun s w => placeWord env ctx w s) st

/-- Place one inline emoji sprite, wrapping first when it does not fit. -/
def placeEmoji (_env : Env) (ctx : LayoutCtx) (st : WalkSt) : WalkSt :=
  let st1 :=
    if ctx.bubblePadding < st.curX ∧ ctx.maxContentWidth < st.curX + ctx.emojiW + 2
    then wrapLine ctx st else st
  { st1 with curX := st1.curX + ctx.emojiW + ctx.spaceWidth,
             lineW := max st1.lineW (st1.curX + ctx.emojiW),
             placed := st1.placed ++ [⟨true, [], st1.curX, st1.curY + ctx.lineH / 2, ctx.emojiW⟩] }

/-- The word wrapping walk over the parsed segments paired with their
display objects: text segments are split into words and placed, emoji
sprites are placed inline unless the left column mode is active, fallback
emoji text nodes are never positioned. -/
def placeParts (env : Env) (ctx : LayoutCtx) (emojiLeftMode : Bool) :
    List (DialoguePartC × PObjKind) → WalkSt → WalkSt
  | [], st => st
  | (p, k) :: rest, st =>
    let st' :=
      match p, k with
      | DialoguePartC.text c, PObjKind.textObj => placeWords env ctx (splitOnSpace c) st
      | DialoguePartC.emoji _, PObjKind.sprite =>
        if emojiLeftMode then st else placeEmoji env ctx st
      | _, _ => st
    placeParts env ctx emojiLeftMode rest st'

/-- Full geometric result of one updateLineLayout call. -/
structure LayoutOut where
  isRightAligned : Bool
  colorIndex : Nat
  bubbleColor : Nat
  placed : List Placed
  lineWidth : ℚ
  totalContentHeight : ℚ
  bubbleDrawWidth : ℚ
  bubbleX : ℚ
  avatarPos : Option (ℚ × ℚ)
  leftEmojiCount : Nat
  finalHeight : ℚ
  newObjState : ObjState
deriving DecidableEq, Repr

/-- Embedding of DialogueLineManager.updateLineLayout, hard break
revision: speaker determined alignment and palette color, word wrap with
hard character breaking, bubble sizing and horizontal anchoring. -/
def updateLineLayout (env : Env) (ld : LineRenderData) (aw : ℚ) : LayoutOut :=
  let ctx := layoutCtx env aw
  let speakerName := falsyOr ld.speakerName unknownName
  let hash := nameHash speakerName
  let isRight : Bool := decide (hash % 2 = 0)
  let colorIndex := hash % speakerColors.length
  let bubbleColor := speakerColors.getD colorIndex 0
  let avatar := env.avatarAvail speakerName
  let avatarSizeS := env.avatarSize * ctx.scaleFactor
  let st0 : WalkSt :=
    ⟨ctx.bubblePadding,
     env.charTextBaseH ld.characterText * ctx.scaleFactor + 5 * ctx.scaleFactor, 0, []⟩
  let stF := placeParts env ctx env.emojiLeft (ld.parts.zip ld.partObjects) st0
  let finalContentWidth := min stF.lineW ctx.maxContentWidth
  let actualBubbleContentWidth := max finalContentWidth ctx.bubblePadding
  let totalContentHeight := stF.curY + ctx.lineH + ctx.bubblePadding
  let bubbleDrawWidth := actualBubbleContentWidth + ctx.bubblePadding * 2
  let leftEmojiCount :=
    if env.emojiLeft then (ld.partObjects.filter (· = PObjKind.sprite)).length else 0
  let avatarOffset := if avatar then avatarSizeS + 10 * ctx.scaleFactor else 0
  let emojiOffset :=
    if env.emojiLeft ∧ leftEmojiCount ≠ 0 then env.emojiSize * ctx.scaleFactor + 10 else 0
  let bubbleX :=
    if isRight then max 0 (aw - (bubbleDrawWidth + 15 * ctx.scaleFactor))
    else max 0 (15 * ctx.scaleFactor + avatarOffset + emojiOffset)
  let avatarPos :=
    if avatar then some (5 * ctx.scaleFactor, totalContentHeight / 2 - avatarSizeS / 2)
    else none
  let newObjState : ObjState :=
    ⟨ctx.scaleFactor,
     ld.partObjects.map fun k =>
       match k with
       | PObjKind.sprite => (ctx.emojiW, ctx.emojiW)
       | _ => (ctx.scaleFactor, ctx.scaleFactor)⟩
  ⟨isRight, colorIndex, bubbleColor, stF.placed, stF.lineW, totalContentHeight,
   bubbleDrawWidth, bubbleX, avatarPos, leftEmojiCount,
   totalContentHeight + 15 * ctx.scaleFactor, newObjState⟩

/-- Embedding of createLineObjects: default missing names and texts,
create the speaker label and one display object per parsed segment. -/
def createLineObjects (env : Env) (line : Option (List Char) × Option (List Char)) :
    LineRenderData :=
  let name := falsyOr line.1 unknownName
  let text := falsyOr line.2 []
  let parts := parseLine text
  ⟨none, name ++ [':'], parts, parts.map (objKindFor env), ⟨1, parts.map fun _ => (1, 1)⟩⟩

/-- A fully created and laid out dialogue line. -/
structure DialogueLineOut where
  ld : LineRenderData
  out : LayoutOut
deriving DecidableEq, Repr

/-- Embedding of createDialogueLine: create the objects, record the raw
speaker name, lay the line out and apply the object mutations of the
layout call. -/
def createDialogueLine (env : Env) (line : Option (List Char) × Option (List Char))
    (aw : ℚ) : DialogueLineOut :=
  let ld0 := createLineObjects env line
  let ld1 := { ld0 with speakerName := line.1 }
  let out := updateLineLayout env ld1 aw
  ⟨{ ld1 with objState := out.newObjState }, out⟩

theorem updateLineLayout_isRight (env : Env) (ld : LineRenderData) (aw : ℚ) :
    (updateLineLayout env ld aw).isRightAligned =
      decide (nameHash (falsyOr ld.speakerName unknownName) % 2 = 0) := rfl

theorem updateLineLayout_colorIndex (env : Env) (ld : LineRenderData) (aw : ℚ) :
    (updateLineLayout env ld aw).colorIndex =
      nameHash (falsyOr ld.speakerName unknownName) % speakerColors.length := rfl

/-- C7 (amended): bubble side and palette color index are pure functions
of the speaker name alone, identical across widths, styles and call
contexts; for every non empty speaker name the side is right exactly when
the sum of its character codes is even and the color index is that sum
modulo the palette size; a missing or empty speaker name falls back to the
name Unknown, whose hash decides side and color instead. -/
theorem speaker_side_color_pure (env env' : Env) (ld ld' : LineRenderData)
    (aw aw' : ℚ) (hname : ld.speakerName = ld'.speakerName) :
    ((updateLineLayout env ld aw).isRightAligned =
        (updateLineLayout env' ld' aw').isRightAligned ∧
      (updateLineLayout env ld aw).colorIndex =
        (updateLineLayout env' ld' aw').colorIndex) ∧
    (∀ s : List Char, ld.speakerName = some s → s ≠ [] →
      (updateLineLayout env ld aw).isRightAligned = decide (nameHash s % 2 = 0) ∧
      (updateLineLayout env ld aw).colorIndex = nameHash s % speakerColors.length) ∧
    ((ld.speakerName = none ∨ ld.speakerName = some []) →
      (updateLineLayout env ld aw).isRightAligned =
        decide (nameHash unknownName % 2 = 0) ∧
      (updateLineLayout env ld aw).colorIndex =
        nameHash unknownName % speakerColors.length) := by
  refine ⟨⟨?_, ?_⟩, ?_, ?_⟩
  · rw [updateLineLayout_isRight, updateLineLayout_isRight, hname]
  · rw [updateLineLayout_colorIndex, updateLineLayout_colorIndex, hname]
  · intro s hs hne
    rw [updateLineLayout_isRight, updateLineLayout_colorIndex, hs]
    simp [falsyOr, hne]
  · intro hs
    rcases hs with hs | hs <;>
      rw [updateLineLayout_isRight, updateLineLayout_colorIndex, hs] <;>
      simp [falsyOr]

/-- Environment with unit character widths used for concrete evaluations
of the speaker styling. -/
def envSpeaker : Env :=
  ⟨fun _ => 1, fun _ => 10, 16, 16, 32, 40, false,
   fun _ => false, fun _ => false, 10, 20, 1000⟩

/-- C7 counterexample: for the empty speaker name the code falls back to
the name Unknown, so the palette index is 2 while the sum of the character
codes of the empty name selects index 0: the claimed formula fails at the
empty name. -/
theorem speaker_color_empty_name_counterexample :
    (createDialogueLine envSpeaker (some [], some "hi".toList) 312).out.colorIndex = 2 ∧
    nameHash [] % speakerColors.length = 0 ∧
    (createDialogueLine envSpeaker (some [], some "hi".toList) 312).out.colorIndex ≠
      nameHash [] % speakerColors.length := by
  refine ⟨by decide, by decide, by decide⟩

/-- Witness for C7: the amended statement applied to the concrete non
empty speaker name Bob. -/
theorem speaker_side_color_pure_witness :
    (updateLineLayout envSpeaker
        (createDialogueLine envSpeaker (some "Bob".toList, some "hi".toList) 312).ld
        312).isRightAligned = decide (nameHash "Bob".toList % 2 = 0) ∧
    (updateLineLayout envSpeaker
        (createDialogueLine envSpeaker (some "Bob".toList, some "hi".toList) 312).ld
        312).colorIndex = nameHash "Bob".toList % speakerColors.length :=
  (speaker_side_color_pure envSpeaker envSpeaker _ _ 312 312 rfl).2.1
    "Bob".toList rfl (by decide)

/-- C8: layout is idempotent: a second updateLineLayout call on the
objects mutated by a first call with the same inputs returns the identical
geometry, and two createDialogueLine calls with identical line data, width
and environment produce identical results. -/
theorem layout_idempotent (env : Env) (ld : LineRenderData) (aw : ℚ)
    (line : Option (List Char) × Option (List Char)) :
    updateLineLayout env
        { ld with objState := (updateLineLayout env ld aw).newObjState } aw =
      updateLineLayout env ld aw ∧
    createDialogueLine env line aw = createDialogueLine env line aw :=
  ⟨rfl, rfl⟩

/-- C9: creating a dialogue line is total for every input record,
including records with a missing or empty speaker name or a missing text:
the speaker label defaults to Unknown, the text defaults to the empty
string, the line is still parsed into at least one segment and laid
out. -/
theorem createDialogueLine_defaults (env : Env) (aw : ℚ)
    (name? text? : Option (List Char)) :
    (createDialogueLine env (name?, text?) aw).ld.characterText =
        falsyOr name? unknownName ++ [':'] ∧
    (createDialogueLine env (name?, text?) aw).ld.parts =
        parseLine (falsyOr text? []) ∧
    (createDialogueLine env (name?, text?) aw).ld.parts ≠ [] ∧
    (createDialogueLine env (name?, text?) aw).out =
        updateLineLayout env (createDialogueLine env (name?, text?) aw).ld aw ∧
    (createDialogueLine env (none, none) aw).ld.characterText =
        unknownName ++ [':'] ∧
    (createDialogueLine env (some [], some []) aw).ld.parts =
        [DialoguePartC.text []] := by
  refine ⟨rfl, rfl, ?_, rfl, rfl, by simp [createDialogueLine, createLineObjects, falsyOr, parseLine]⟩
  have h := (parseLine_reconstruction (falsyOr text? [])).1
  simpa [createDialogueLine, createLineObjects] using h

/-! ### Word wrap overflow bound (C2) -/

/-- Invariant of the wrapping walk: the pen never moves left of the inner
padding, and every node placed so far ends within the content width plus
the line start offset minus the safety margin. -/
def StOK (ctx : LayoutCtx) (st : WalkSt) : Prop :=
  ctx.bubblePadding ≤ st.curX ∧
  ∀ pl ∈ st.placed, pl.x + pl.w ≤ ctx.maxContentWidth + ctx.bubblePadding - 2

theorem firstNonFitGo_some {fits : Nat → Bool} :
    ∀ {n k k0 : Nat}, firstNonFitGo fits k n = some k0 →
      fits k0 = false ∧ k ≤ k0 ∧ k0 < k + n ∧
        ∀ j, k ≤ j → j < k0 → fits j = true := by
  intro n
  induction n with
  | zero => intro k k0 h; simp [firstNonFitGo] at h
  | succ n ih =>
    intro k k0 h
    simp only [firstNonFitGo] at h
    by_cases hf : fits k
    · rw [if_pos hf] at h
      obtain ⟨h1, h2, h3, h4⟩ := ih h
      refine ⟨h1, by omega, by omega, ?_⟩
      intro j hj1 hj2
      rcases Nat.eq_or_lt_of_le hj1 with he | hl
      · rw [← he]; exact hf
      · exact h4 j hl hj2
    · rw [if_neg hf] at h
      cases h
      refine ⟨by simpa using hf, le_refl _, by omega, ?_⟩
      intro j hj1 hj2; omega

theorem firstNonFitGo_none {fits : Nat → Bool} :
    ∀ {n k : Nat}, firstNonFitGo fits k n = none →
      ∀ j, k ≤ j → j < k + n → fits j = true := by
  intro n
  induction n with
  | zero => intro k _ j hj1 hj2; omega
  | succ n ih =>
    intro k h j hj1 hj2
    simp only [firstNonFitGo] at h
    by_cases hf : fits k
    · rw [if_pos hf] at h
      rcases Nat.eq_or_lt_of_le hj1 with he | hl
      · rw [← he]; exact hf
      · exact ih h j hl (by omega)
    · rw [if_neg hf] at h; cases h

theorem StOK_lineW (ctx : LayoutCtx) (st : WalkSt) (w : ℚ) (h : StOK ctx st) :
    StOK ctx { st with lineW := w } :=
  ⟨h.1, fun pl hpl => h.2 pl hpl⟩

theorem StOK_ite (ctx : LayoutCtx) (c : Prop) [Decidable c] (a b : WalkSt)
    (ha : StOK ctx a) (hb : StOK ctx b) : StOK ctx (if c then a else b) := by
  split_ifs <;> assumption

theorem StOK_wrapLine (ctx : LayoutCtx) (st : WalkSt) (h : StOK ctx st) :
    StOK ctx (wrapLine ctx st) :=
  ⟨le_refl _, fun pl hpl => h.2 pl hpl⟩

theorem StOK_extend (ctx : LayoutCtx) (st : WalkSt) (x' : ℚ) (p : Placed)
    (h : StOK ctx st) (hx : ctx.bubblePadding ≤ x')
    (hp : p.x + p.w ≤ ctx.maxContentWidth + ctx.bubblePadding - 2) :
    StOK ctx { st with curX := x', placed := st.placed ++ [p] } := by
  refine ⟨hx, ?_⟩
  intro pl hpl
  rcases List.mem_append.mp hpl with hl | hr
  · exact h.2 pl hl
  · have hpe : pl = p := by simpa using hr
    rw [hpe]; exact hp

/-- After the optional wrap before a placement, the pen is still right of
the padding and either sits exactly at the padding or leaves room for the
piece. -/
theorem wrapCheck_spec (ctx : LayoutCtx) (st : WalkSt) (wdt : ℚ) (hst : StOK ctx st) :
    ctx.bubblePadding ≤
      (if ctx.bubblePadding < st.curX ∧ ctx.maxContentWidth < st.curX + wdt + 2
       then wrapLine ctx st else st).curX ∧
    ((if ctx.bubblePadding < st.curX ∧ ctx.maxContentWidth < st.curX + wdt + 2
       then wrapLine ctx st else st).curX = ctx.bubblePadding ∨
     (if ctx.bubblePadding < st.curX ∧ ctx.maxContentWidth < st.curX + wdt + 2
       then wrapLine ctx st else st).curX + wdt + 2 ≤ ctx.maxContentWidth) ∧
    ∀ pl ∈ (if ctx.bubblePadding < st.curX ∧ ctx.maxContentWidth < st.curX + wdt + 2
       then wrapLine ctx st else st).placed,
      pl.x + pl.w ≤ ctx.maxContentWidth + ctx.bubblePadding - 2 := by
  split_ifs with hcond
  · exact ⟨le_refl _, Or.inl rfl, hst.2⟩
  · rcases not_and_or.mp hcond with hc | hc
    · have he : st.curX = ctx.bubblePadding := le_antisymm (not_lt.mp hc) hst.1
      exact ⟨hst.1, Or.inl he, hst.2⟩
    · exact ⟨hst.1, Or.inr (not_lt.mp hc), hst.2⟩

/-- Specification of one hard break step: when a single character fits,
the placed prefix itself fits within the content width minus the safety
margin, and at least one character is consumed. -/
theorem charsFitOf_take_fits (env : Env) (ctx : LayoutCtx) (remaining : List Char)
    (hne : remaining ≠ [])
    (h1 : measureW env ctx (remaining.take 1) + 2 ≤ ctx.maxContentWidth) :
    1 ≤ charsFitOf
        (fun k => decide (measureW env ctx (remaining.take k) + 2 ≤ ctx.maxContentWidth))
        remaining.length ∧
    measureW env ctx
        (remaining.take (charsFitOf
          (fun k => decide (measureW env ctx (remaining.take k) + 2 ≤ ctx.maxContentWidth))
          remaining.length)) + 2 ≤ ctx.maxContentWidth := by
  set fits := fun k =>
    decide (measureW env ctx (remaining.take k) + 2 ≤ ctx.maxContentWidth) with hfits
  have hlen : 1 ≤ remaining.length := by
    cases remaining with
    | nil => exact absurd rfl hne
    | cons c cs => simp
  have hfits1 : fits 1 = true := by
    rw [hfits]; simpa using h1
  unfold charsFitOf
  cases hgo : firstNonFitGo fits 1 remaining.length with
  | some k0 =>
    dsimp only
    obtain ⟨hk0, hk1, hk2, hall⟩ := firstNonFitGo_some hgo
    have hk0ne1 : k0 ≠ 1 := by
      intro he; rw [he] at hk0; rw [hfits1] at hk0; cases hk0
    have h2k0 : 2 ≤ k0 := by omega
    have hm : max 1 (k0 - 1) = k0 - 1 := by omega
    rw [hm]
    refine ⟨by omega, ?_⟩
    have hj := hall (k0 - 1) (by omega) (by omega)
    rw [hfits] at hj
    simpa using hj
  | none =>
    dsimp only
    refine ⟨by omega, ?_⟩
    have hj := firstNonFitGo_none hgo remaining.length hlen (by omega)
    rw [hfits] at hj
    simp only [decide_eq_true_eq] at hj
    have hfull : remaining.take (remaining.length + 1) = remaining :=
      List.take_of_length_le (by omega)
    have htl : remaining.take remaining.length = remaining :=
      List.take_of_length_le (le_refl _)
    rw [hfull]
    rw [htl] at hj
    exact hj

theorem hardBreakLoop_StOK (env : Env) (ctx : LayoutCtx)
    (hpad : 0 ≤ ctx.bubblePadding)
    (hmw : ∀ cs : List Char, 0 ≤ measureW env ctx cs) :
    ∀ (fuel : Nat) (remaining : List Char) (st : WalkSt),
      StOK ctx st →
      (∀ c ∈ remaining, measureW env ctx [c] + 2 ≤ ctx.maxContentWidth) →
      StOK ctx (hardBreakLoop env ctx fuel remaining st) := by
  intro fuel
  induction fuel with
  | zero => intro remaining st hst _; exact hst
  | succ n ih =>
    intro remaining st hst hchar
    match remaining with
    | [] => exact hst
    | c :: cs =>
      simp only [hardBreakLoop]
      have hone : measureW env ctx ((c :: cs).take 1) + 2 ≤ ctx.maxContentWidth := by
        simpa using hchar c (by simp)
      obtain ⟨hm1, hfit⟩ := charsFitOf_take_fits env ctx (c :: cs) (by simp) hone
      set m := charsFitOf
        (fun k => decide (measureW env ctx ((c :: cs).take k) + 2 ≤ ctx.maxContentWidth))
        (c :: cs).length with hmdef
      set seg := (c :: cs).take m with hsegdef
      set segW := measureW env ctx seg with hsegWdef
      have hsegW0 : 0 ≤ segW := hmw seg
      obtain ⟨hw1, hw2, hw3⟩ := wrapCheck_spec ctx st segW hst
      set st1 :=
        (if ctx.bubblePadding < st.curX ∧ ctx.maxContentWidth < st.curX + segW + 2
         then wrapLine ctx st else st) with hst1def
      have hedge : st1.curX + segW ≤ ctx.maxContentWidth + ctx.bubblePadding - 2 := by
        rcases hw2 with he | he
        · rw [he]; linarith
        · linarith
      have hst2 := StOK_extend ctx st1 (st1.curX + segW)
        ⟨false, seg, st1.curX, st1.curY, segW⟩ ⟨hw1, hw3⟩ (by linarith) hedge
      refine ih (List.drop m (c :: cs)) _
        (StOK_lineW ctx _ _ (StOK_ite ctx _ _ _ hst2 (StOK_wrapLine ctx _ hst2))) ?_
      intro ch hch
      exact hchar ch (List.drop_subset m (c :: cs) hch)

theorem placeWord_StOK (env : Env) (ctx : LayoutCtx)
    (hpad : 0 ≤ ctx.bubblePadding) (hsp : 0 ≤ ctx.spaceWidth)
    (hmw : ∀ cs : List Char, 0 ≤ measureW env ctx cs)
    (word : List Char) (st : WalkSt) (hst : StOK ctx st)
    (hshort : word.length ≤ 10 → measureW env ctx word + 2 ≤ ctx.maxContentWidth)
    (hchar : ∀ c ∈ word, measureW env ctx [c] + 2 ≤ ctx.maxContentWidth) :
    StOK ctx (placeWord env ctx word st) := by
  simp only [placeWord]
  by_cases hcond : ctx.maxContentWidth < measureW env ctx word + 2 ∧ 10 < word.length
  · rw [if_pos hcond]
    exact hardBreakLoop_StOK env ctx hpad hmw word.length word st hst hchar
  · rw [if_neg hcond]
    have hwfit : measureW env ctx word + 2 ≤ ctx.maxContentWidth := by
      rcases not_and_or.mp hcond with hc | hc
      · exact not_lt.mp hc
      · exact hshort (by omega)
    obtain ⟨hw1, hw2, hw3⟩ := wrapCheck_spec ctx st (measureW env ctx word) hst
    set st1 :=
      (if ctx.bubblePadding < st.curX ∧
          ctx.maxContentWidth < st.curX + measureW env ctx word + 2
       then wrapLine ctx st else st) with hst1def
    have hedge : st1.curX + measureW env ctx word ≤
        ctx.maxContentWidth + ctx.bubblePadding - 2 := by
      rcases hw2 with he | he
      · rw [he]; linarith
      · linarith
    have hmw0 := hmw word
    refine ⟨?_, ?_⟩
    · show ctx.bubblePadding ≤ st1.curX + measureW env ctx word + ctx.spaceWidth
      linarith
    intro pl hpl
    rcases List.mem_append.mp hpl with hl | hr
    · exact hw3 pl hl
    · have hpe : pl = ⟨false, word, st1.curX, st1.curY, measureW env ctx word⟩ := by
        simpa using hr
      rw [hpe]; exact hedge

theorem placeEmoji_StOK (env : Env) (ctx : LayoutCtx)
    (hpad : 0 ≤ ctx.bubblePadding) (hsp : 0 ≤ ctx.spaceWidth)
    (hew : 0 ≤ ctx.emojiW) (hemoji : ctx.emojiW + 2 ≤ ctx.maxContentWidth)
    (st : WalkSt) (hst : StOK ctx st) :
    StOK ctx (placeEmoji env ctx st) := by
  simp only [placeEmoji]
  obtain ⟨hw1, hw2, hw3⟩ := wrapCheck_spec ctx st ctx.emojiW hst
  set st1 :=
    (if ctx.bubblePadding < st.curX ∧
        ctx.maxContentWidth < st.curX + ctx.emojiW + 2
     then wrapLine ctx st else st) with hst1def
  have hedge : st1.curX + ctx.emojiW ≤ ctx.maxContentWidth + ctx.bubblePadding - 2 := by
    rcases hw2 with he | he
    · rw [he]; linarith
    · linarith
  refine ⟨by linarith, ?_⟩
  intro pl hpl
  rcases List.mem_append.mp hpl with hl | hr
  · exact hw3 pl hl
  · have hpe : pl = ⟨true, [], st1.curX, st1.curY + ctx.lineH / 2, ctx.emojiW⟩ := by
      simpa using hr
    rw [hpe]; exact hedge

theorem placeWords_StOK (env : Env) (ctx : LayoutCtx)
    (hpad : 0 ≤ ctx.bubblePadding) (hsp : 0 ≤ ctx.spaceWidth)
    (hmw : ∀ cs : List Char, 0 ≤ measureW env ctx cs) :
    ∀ (ws : List (List Char)) (st : WalkSt), StOK ctx st →
      (∀ w ∈ ws,
        (w.length ≤ 10 → measureW env ctx w + 2 ≤ ctx.maxContentWidth) ∧
        (∀ c ∈ w, measureW env ctx [c] + 2 ≤ ctx.maxContentWidth)) →
      StOK ctx (placeWords env ctx ws st) := by
  intro ws
  induction ws with
  | nil => intro st hst _; exact hst
  | cons w ws ih =>
    intro st hst hws
    simp only [placeWords, List.foldl_cons]
    have hw := hws w (by simp)
    exact ih _ (placeWord_StOK env ctx hpad hsp hmw w st hst hw.1 hw.2)
      (fun w' hw' => hws w' (List.mem_cons_of_mem _ hw'))

theorem placeParts_StOK (env : Env) (ctx : LayoutCtx) (emojiLeftMode : Bool)
    (hpad : 0 ≤ ctx.bubblePadding) (hsp : 0 ≤ ctx.spaceWidth)
    (hew : 0 ≤ ctx.emojiW) (hemoji : ctx.emojiW + 2 ≤ ctx.maxContentWidth)
    (hmw : ∀ cs : List Char, 0 ≤ measureW env ctx cs) :
    ∀ (pairs : List (DialoguePartC × PObjKind)) (st : WalkSt), StOK ctx st →
      (∀ pr ∈ pairs, ∀ content : List Char, pr.1 = DialoguePartC.text content →
        ∀ w ∈ splitOnSpace content,
          (w.length ≤ 10 → measureW env ctx w + 2 ≤ ctx.maxContentWidth) ∧
          (∀ c ∈ w, measureW env ctx [c] + 2 ≤ ctx.maxContentWidth)) →
      StOK ctx (placeParts env ctx emojiLeftMode pairs st) := by
  intro pairs
  induction pairs with
  | nil => intro st hst _; exact hst
  | cons pr rest ih =>
    intro st hst hp
    obtain ⟨p, k⟩ := pr
    simp only [placeParts]
    have htail : ∀ pr ∈ rest, ∀ content : List Char, pr.1 = DialoguePartC.text content →
        ∀ w ∈ splitOnSpace content,
          (w.length ≤ 10 → measureW env ctx w + 2 ≤ ctx.maxContentWidth) ∧
          (∀ c ∈ w, measureW env ctx [c] + 2 ≤ ctx.maxContentWidth) :=
      fun pr hpr => hp pr (List.mem_cons_of_mem _ hpr)
    refine ih _ ?_ htail
    cases p with
    | text c =>
      cases k with
      | textObj =>
        exact placeWords_StOK env ctx hpad hsp hmw (splitOnSpace c) st hst
          (hp (DialoguePartC.text c, PObjKind.textObj) (List.mem_cons_self _ _) c rfl)
      | sprite => exact hst
      | fallbackText => exact hst
    | emoji n =>
      cases k with
      | textObj => exact hst
      | sprite =>
        show StOK ctx (if emojiLeftMode then st else placeEmoji env ctx st)
        split_ifs
        · exact hst
        · exact placeEmoji_StOK env ctx hpad hsp hew hemoji st hst
      | fallbackText => exact hst
    | avatar c => cases k <;> exact hst
    | missingEmoji c => cases k <;> exact hst

theorem updateLineLayout_placed (env : Env) (ld : LineRenderData) (aw : ℚ) :
    (updateLineLayout env ld aw).placed =
      (placeParts env (layoutCtx env aw) env.emojiLeft (ld.parts.zip ld.partObjects)
        ⟨(layoutCtx env aw).bubblePadding,
         env.charTextBaseH ld.characterText * (layoutCtx env aw).scaleFactor +
           5 * (layoutCtx env aw).scaleFactor, 0, []⟩).placed := rfl

theorem layoutScale_nonneg (aw : ℚ) : 0 ≤ layoutScale aw := by
  unfold layoutScale
  have h1 : (8/10 : ℚ) ≤ max (8/10) (aw / 800) := le_max_left _ _
  exact le_min (by norm_num) (by linarith)

theorem measureW_nonneg (env : Env) (ctx : LayoutCtx)
    (hcw : ∀ c, 0 ≤ env.charW c) (hs : 0 ≤ ctx.scaleFactor) (cs : List Char) :
    0 ≤ measureW env ctx cs := by
  unfold measureW measureBase
  apply mul_nonneg hs
  apply List.sum_nonneg
  intro x hx
  obtain ⟨c, _, hc⟩ := List.mem_map.mp hx
  rw [← hc]
  exact hcw c

/-- C2 (amended): under the word wrap of updateLineLayout, whenever every
single character fits in the content width (minus the two pixel safety
margin), every word of at most ten characters fits, and the scaled emoji
size fits, every placed word piece or inline emoji ends no further right
than the content width plus the line start padding minus the safety
margin.  Oversized words are hard broken only when they are longer than
ten characters, and the pieces are placed starting at the padding, so a
maximal piece may legitimately end up to one padding width past the
content width; nothing overflows the padded bubble itself. -/
theorem layout_word_wrap_bound (env : Env) (ld : LineRenderData) (aw : ℚ)
    (hcw : ∀ c, 0 ≤ env.charW c)
    (hes : 0 ≤ env.emojiSize)
    (hemoji : env.emojiSize * layoutScale aw + 2 ≤ layoutMaxContentWidth aw)
    (hwords : ∀ content : List Char, DialoguePartC.text content ∈ ld.parts →
      ∀ w ∈ splitOnSpace content,
        (w.length ≤ 10 →
          measureW env (layoutCtx env aw) w + 2 ≤ layoutMaxContentWidth aw) ∧
        (∀ c ∈ w,
          measureW env (layoutCtx env aw) [c] + 2 ≤ layoutMaxContentWidth aw)) :
    ∀ pl ∈ (updateLineLayout env ld aw).placed,
      pl.x + pl.w ≤ layoutMaxContentWidth aw + layoutBubblePadding aw - 2 := by
  intro pl hpl
  rw [updateLineLayout_placed] at hpl
  have hs0 : 0 ≤ layoutScale aw := layoutScale_nonneg aw
  have hpad : 0 ≤ (layoutCtx env aw).bubblePadding := by
    show 0 ≤ 15 * layoutScale aw
    linarith
  have hsp : 0 ≤ (layoutCtx env aw).spaceWidth := by
    show 0 ≤ 5 * layoutScale aw
    linarith
  have hew : 0 ≤ (layoutCtx env aw).emojiW := by
    show 0 ≤ env.emojiSize * layoutScale aw
    exact mul_nonneg hes hs0
  have hst0 : StOK (layoutCtx env aw)
      ⟨(layoutCtx env aw).bubblePadding,
       env.charTextBaseH ld.characterText * (layoutCtx env aw).scaleFactor +
         5 * (layoutCtx env aw).scaleFactor, 0, []⟩ := by
    exact ⟨le_refl _, by intro pl' hpl'; simp at hpl'⟩
  have hall := placeParts_StOK env (layoutCtx env aw) env.emojiLeft hpad hsp hew
    hemoji (measureW_nonneg env (layoutCtx env aw) hcw hs0)
    (ld.parts.zip ld.partObjects) _ hst0 ?_
  · exact hall.2 pl hpl
  · intro pr hpr content hcontent w hw
    have hmem := (List.of_mem_zip hpr).1
    rw [hcontent] at hmem
    exact hwords content hmem w hw

/-- Environment with wide constant character advance used to exhibit an
unbroken oversized short word. -/
def envWide : Env :=
  ⟨fun _ => 100, fun _ => 20, 16, 16, 32, 40, false,
   fun _ => false, fun _ => false, 10, 20, 1000⟩

/-- A ten character word. -/
def tenAs : List Char := List.replicate 10 'a'

/-- The ten character word laid out at available width 312 with 100 pixel
glyphs. -/
def ldWide : LineRenderData :=
  (createDialogueLine envWide (some "A".toList, some tenAs) 312).ld

theorem measureBase_envWide (cs : List Char) :
    measureBase envWide cs = 100 * cs.length := by
  induction cs with
  | nil => simp [measureBase]
  | cons c cs ih =>
    simp [measureBase, envWide] at *
    rw [ih]
    ring

theorem layoutCtx_envWide_312 : layoutCtx envWide 312 =
    ⟨4/5, 12, 210, 4, 128/5, 128/5⟩ := by
  simp only [layoutCtx, layoutScale, layoutBubblePadding, layoutMaxContentWidth,
    getLineHeight, envWide, min_def, max_def]
  norm_num

theorem zip_ldWide : ldWide.parts.zip ldWide.partObjects =
    [(DialoguePartC.text tenAs, PObjKind.textObj)] := by decide

theorem splitOnSpace_tenAs : splitOnSpace tenAs = [tenAs] := by decide

theorem length_tenAs : tenAs.length = 10 := by decide

theorem charText_ldWide : ldWide.characterText = "A:".toList := by decide

/-- C2 counterexample: a ten character word whose measured width 800
exceeds the content width 210 is not hard broken (the hard break branch
also requires more than ten characters): it is placed as a single node
whose right edge 812 exceeds the content width, contradicting both the
universal no overflow claim and the claim that every word wider than the
content width is hard broken into fitting prefixes. -/
theorem word_wrap_overflow_counterexample :
    (updateLineLayout envWide ldWide 312).placed.map (fun pl => (pl.x, pl.w)) =
      [(12, 800)] ∧
    layoutMaxContentWidth 312 = 210 ∧
    ¬ ((12 : ℚ) + 800 ≤ 210) := by
  refine ⟨?_, ?_, by norm_num⟩
  · rw [updateLineLayout_placed, layoutCtx_envWide_312, zip_ldWide, charText_ldWide]
    norm_num [placeParts, placeWords, placeWord, hardBreakLoop, charsFitOf,
      firstNonFitGo, wrapLine, measureW, measureBase_envWide, splitOnSpace_tenAs,
      length_tenAs, List.length_take]
  · simp only [layoutMaxContentWidth, layoutBubblePadding, layoutScale,
      min_def, max_def]
    norm_num

/-- Environment with 25 pixel glyphs: at available width 312 the content
width 210 holds exactly ten 20 pixel scaled characters plus the safety
margin. -/
def envScenario : Env :=
  ⟨fun _ => 25, fun _ => 20, 16, 16, 32, 40, false,
   fun _ => false, fun _ => false, 10, 20, 1000⟩

/-- A forty character word. -/
def fortyAs : List Char := List.replicate 40 'a'

/-- The forty character word laid out at available width 312. -/
def ldScenario : LineRenderData :=
  (createDialogueLine envScenario (some "A".toList, some fortyAs) 312).ld

theorem measureBase_envScenario (cs : List Char) :
    measureBase envScenario cs = 25 * cs.length := by
  induction cs with
  | nil => simp [measureBase]
  | cons c cs ih =>
    simp [measureBase, envScenario] at *
    rw [ih]
    ring

theorem charTextBaseH_envScenario (cs : List Char) :
    envScenario.charTextBaseH cs = 20 := rfl

theorem layoutCtx_envScenario_312 : layoutCtx envScenario 312 =
    ⟨4/5, 12, 210, 4, 128/5, 128/5⟩ := by
  simp only [layoutCtx, layoutScale, layoutBubblePadding, layoutMaxContentWidth,
    getLineHeight, envScenario, min_def, max_def]
  norm_num

theorem zip_ldScenario : ldScenario.parts.zip ldScenario.partObjects =
    [(DialoguePartC.text fortyAs, PObjKind.textObj)] := by decide

theorem parts_ldScenario : ldScenario.parts = [DialoguePartC.text fortyAs] := by decide

theorem splitOnSpace_fortyAs : splitOnSpace fortyAs = [fortyAs] := by decide

theorem length_fortyAs : fortyAs.length = 40 := by decide

theorem charText_ldScenario : ldScenario.characterText = "A:".toList := by decide

/-- Witness for C2: the amended bound applied to a forty character word
with room for exactly ten characters per line; the word is hard broken
into exactly four pieces of ten characters, each placed at the padding on
its own successive line, each within the proven bound. -/
theorem layout_word_wrap_bound_witness :
    (∀ pl ∈ (updateLineLayout envScenario ldScenario 312).placed,
       pl.x + pl.w ≤ layoutMaxContentWidth 312 + layoutBubblePadding 312 - 2) ∧
    (updateLineLayout envScenario ldScenario 312).placed.map
        (fun pl => (pl.x, pl.y, pl.w, pl.chars.length)) =
      [(12, 20, 200, 10), (12, 236/5, 200, 10), (12, 372/5, 200, 10),
       (12, 508/5, 200, 10)] := by
  constructor
  · apply layout_word_wrap_bound
    · intro c
      show (0:ℚ) ≤ 25
      norm_num
    · show (0:ℚ) ≤ 32
      norm_num
    · show (32:ℚ) * layoutScale 312 + 2 ≤ layoutMaxContentWidth 312
      simp only [layoutScale, layoutMaxContentWidth, layoutBubblePadding,
        min_def, max_def]
      norm_num
    · intro content hc w hw
      rw [parts_ldScenario] at hc
      simp only [List.mem_singleton, DialoguePartC.text.injEq] at hc
      subst hc
      rw [splitOnSpace_fortyAs] at hw
      simp only [List.mem_singleton] at hw
      subst hw
      constructor
      · intro h10
        rw [length_fortyAs] at h10
        omega
      · intro c _
        show measureW envScenario (layoutCtx envScenario 312) [c] + 2 ≤
          layoutMaxContentWidth 312
        rw [layoutCtx_envScenario_312]
        have h1 : measureW envScenario ⟨4/5, 12, 210, 4, 128/5, 128/5⟩ [c] = 20 := by
          simp [measureW, measureBase_envScenario]
          norm_num
        rw [h1]
        simp only [layoutMaxContentWidth, layoutBubblePadding, layoutScale,
          min_def, max_def]
        norm_num
  · rw [updateLineLayout_placed, layoutCtx_envScenario_312, zip_ldScenario,
      charText_ldScenario]
    norm_num [placeParts, placeWords, placeWord, hardBreakLoop, charsFitOf,
      firstNonFitGo, wrapLine, measureW, measureBase_envScenario,
      splitOnSpace_fortyAs, length_fortyAs, charTextBaseH_envScenario,
      List.length_take]

/-! ### Dialogue orchestrator (DialogueManager) -/

/-- Visibility state of one display object: the visible flag and, for text
nodes, the currently shown characters. -/
structure PartVis where
  visible : Bool
  shown : List Char
deriving DecidableEq, Repr

/-- Visibility state of one dialogue line: the speaker label flag and the
per segment states. -/
structure VisState where
  nameVisible : Bool
  pvs : List PartVis
deriving DecidableEq, Repr

/-- Visibility of a freshly created display object: objects start visible;
text nodes hold their full content, emoji fallback text nodes hold the
bracketed name. -/
def initPartVis (env : Env) : DialoguePartC → PartVis
  | DialoguePartC.text c => ⟨true, c⟩
  | DialoguePartC.emoji n =>
    if n = [] then ⟨true, ['[', '?', ']']⟩
    else if env.emojiAvail n then ⟨true, []⟩
    else ⟨true, '[' :: (n ++ [']'])⟩
  | _ => ⟨true, []⟩

/-- Visibility state of a freshly created line. -/
def initVis (env : Env) (parts : List DialoguePartC) : VisState :=
  ⟨true, parts.map (initPartVis env)⟩

/-- Whether the part tag is a text segment. -/
def isTextPart : DialoguePartC → Bool
  | DialoguePartC.text _ => true
  | _ => false

/-- Whether the part tag is an emoji segment. -/
def isEmojiPart : DialoguePartC → Bool
  | DialoguePartC.emoji _ => true
  | _ => false

/-- One step of the visibility update of updateLineVisibility: segments
before the cursor fully visible with full text restored, the cursor
segment partially visible, later segments hidden; only text like objects
have their text written. -/
def updatePartVis (part : DialoguePartC) (obj : PObjKind) (prev : PartVis)
    (i pIdx cIdx : Nat) : PartVis :=
  if i < pIdx then
    ⟨true,
     match part, obj with
     | DialoguePartC.text c, PObjKind.textObj => c
     | DialoguePartC.text c, PObjKind.fallbackText => c
     | DialoguePartC.emoji n, PObjKind.textObj => n
     | DialoguePartC.emoji n, PObjKind.fallbackText => n
     | _, _ => prev.shown⟩
  else if i = pIdx ∧ isTextPart part then
    ⟨true,
     match part, obj with
     | DialoguePartC.text c, PObjKind.textObj => c.take cIdx
     | DialoguePartC.text c, PObjKind.fallbackText => c.take cIdx
     | _, _ => prev.shown⟩
  else if i = pIdx ∧ isEmojiPart part then
    ⟨decide (0 < cIdx), prev.shown⟩
  else
    ⟨false, prev.shown⟩

/-- Indexed walk applying updatePartVis to every segment. -/
def updatePvsAux (pIdx cIdx : Nat) :
    Nat → List DialoguePartC → List PObjKind → List PartVis → List PartVis
  | _, [], _, _ => []
  | _, _ :: _, [], _ => []
  | _, _ :: _, _ :: _, [] => []
  | i, p :: ps, o :: os, v :: vs =>
    updatePartVis p o v i pIdx cIdx :: updatePvsAux pIdx cIdx (i + 1) ps os vs

/-- Embedding of DialogueLineManager.updateLineVisibility: the speaker
label becomes visible, and every segment's visibility follows the typing
cursor. -/
def updateLineVisibility (parts : List DialoguePartC) (objs : List PObjKind)
    (vis : VisState) (pIdx cIdx : Nat) : VisState :=
  ⟨true, updatePvsAux pIdx cIdx 0 parts objs vis.pvs⟩

/-- Canonical visibility of a line whose objects were freshly created and
then updated once for the given cursor. -/
def visFor (env : Env) (parts : List DialoguePartC) (pIdx cIdx : Nat) : VisState :=
  updateLineVisibility parts (parts.map (objKindFor env)) (initVis env parts) pIdx cIdx

/-- One dialogue line as tracked by the orchestrator. -/
structure DMLine where
  parts : List DialoguePartC
  objs : List PObjKind
  vis : VisState
  y : ℚ
  height : ℚ
deriving DecidableEq, Repr

/-- Create one line at the given available width (createDialogueLine of
the line manager), with fresh visibility and the returned layout
height. -/
def mkDMLine (env : Env) (d : Option (List Char) × Option (List Char))
    (availW : ℚ) : DMLine :=
  let r := createDialogueLine env d availW
  ⟨r.ld.parts, r.ld.partObjects, initVis env r.ld.parts, 0, r.out.finalHeight⟩

/-- State of the dialogue orchestrator. -/
structure DMState where
  data : List (Option (List Char) × Option (List Char))
  lines : List DMLine
  curLine : Nat
  curPart : Nat
  curChar : Nat
  acc : ℚ
  complete : Bool
  scroll : ScrollState
  screenW : ℚ
  screenH : ℚ
deriving DecidableEq, Repr

/-- Responsive mask padding of updateMask. -/
def responsivePadding (env : Env) (w h : ℚ) : ℚ :=
  max env.dialoguePadding (min (w * (8/100)) (h * (8/100)))

/-- Modify the element at an index of a list, if present. -/
def listModify {α : Type} (f : α → α) : Nat → List α → List α
  | _, [] => []
  | 0, a :: as => f a :: as
  | n + 1, a :: as => a :: listModify f n as

/-- Build all lines of initializeDialogue: create, stack vertically with
line spacing, and hide every line's content. -/
def buildInitLines (env : Env) (availW : ℚ) :
    List (Option (List Char) × Option (List Char)) → ℚ → List DMLine × ℚ
  | [], y => ([], y)
  | d :: ds, y =>
    let nl := mkDMLine env d availW
    let line := { nl with y := y,
                          vis := updateLineVisibility nl.parts nl.objs nl.vis 0 0 }
    let (rest, yEnd) := buildInitLines env availW ds (y + nl.height + env.lineSpacing)
    (line :: rest, yEnd)

/-- Embedding of the DialogueManager constructor: mask, all line layouts,
hidden content, scroll content height. -/
def dmInit (env : Env) (data : List (Option (List Char) × Option (List Char)))
    (screenW screenH : ℚ) : DMState :=
  let mh := screenH - 2 * responsivePadding env screenW screenH
  let availW := screenW - env.dialoguePadding * 2
  let built := buildInitLines env availW data 0
  ⟨data, built.1, 0, 0, 0, 0, false, updateContentHeight built.2 (initScroll mh),
   screenW, screenH⟩

/-- Embedding of DialogueManager.advanceTyping: reveal one unit and update
the current line's visibility, advancing across segment and line
boundaries. -/
def dmTick (s : DMState) : DMState :=
  if s.complete then s
  else
    match s.lines.get? s.curLine with
    | none => { s with complete := true }
    | some line =>
      match line.parts.get? s.curPart with
      | none =>
        let s1 := { s with curLine := s.curLine + 1, curPart := 0, curChar := 0 }
        if s.lines.length ≤ s1.curLine then { s1 with complete := true }
        else
          { s1 with lines := listModify (fun l => { l with vis := updateLineVisibility l.parts l.objs l.vis 0 0 }) s1.curLine s1.lines }
      | some part =>
        let next : Nat × Nat :=
          match part with
          | DialoguePartC.text c =>
            if c.length < s.curChar + 1 then (s.curPart + 1, 0)
            else (s.curPart, s.curChar + 1)
          | DialoguePartC.emoji _ => (s.curPart + 1, 1)
          | _ => (s.curPart, s.curChar)
        let lines' := listModify (fun l => { l with vis := updateLineVisibility l.parts l.objs l.vis next.1 next.2 }) s.curLine s.lines
        let s2 := { s with lines := lines', curPart := next.1, curChar := next.2 }
        if line.parts.length ≤ next.1 then
          let s3 := { s2 with curLine := s2.curLine + 1, curPart := 0, curChar := 0 }
          if s.lines.length ≤ s3.curLine then { s3 with complete := true } else s3
        else s2

/-- Fuel indexed while loop of DialogueManager.update: as long as the
accumulator holds a full reveal slice, consume it and advance typing. -/
def typingLoopF (slice : ℚ) : Nat → ℚ → DMState → ℚ × DMState
  | 0, a, s => (a, s)
  | n + 1, a, s =>
    if 0 < slice ∧ slice ≤ a then typingLoopF slice n (a - slice) (dmTick s)
    else (a, s)

/-- The typing loop with exactly enough fuel: the number of whole slices
in the accumulator. -/
def typingLoop (slice a : ℚ) (s : DMState) : ℚ × DMState :=
  typingLoopF slice ((Int.floor (a / slice)).toNat) a s

/-- Embedding of DialogueManager.update: early return when complete,
otherwise accumulate, run the typing loop, update scroll and auto follow
the bottom while typing. -/
def dmUpdate (env : Env) (δ : ℚ) (s : DMState) : DMState :=
  if s.complete then { s with scroll := updateScroll s.scroll }
  else
    let charRevealTime := 1000 / env.typingSpeed
    let r := typingLoop charRevealTime (s.acc + δ) s
    let s2 := { r.2 with acc := r.1 }
    let sc := updateScroll s2.scroll
    { s2 with scroll := if s2.complete then sc else scrollToBottom sc }

/-- Embedding of DialogueManager.forceScrollToBottom: save the pause flag,
clear it, scroll to the bottom, restore the flag. -/
def forceScrollToBottom (sc : ScrollState) : ScrollState :=
  let wasPaused := sc.isScrollingPaused
  let sc1 := scrollToBottom { sc with isScrollingPaused := false }
  { sc1 with isScrollingPaused := wasPaused }

/-- Embedding of DialogueManager.appendMessage: lay out the new line at
the bottom, hide it, update the content height, reset the typing cursor to
the new line and force a scroll to the bottom. -/
def dmAppend (env : Env) (line : Option (List Char) × Option (List Char))
    (s : DMState) : DMState :=
  let currentY :=
    match s.lines.getLast? with
    | some last => last.y + last.height + env.lineSpacing
    | none => 0
  let availW := s.screenW - env.dialoguePadding * 2
  let nl := mkDMLine env line availW
  let newLine := { nl with y := currentY,
                           vis := updateLineVisibility nl.parts nl.objs nl.vis 0 0 }
  let lines' := s.lines ++ [newLine]
  let scroll1 := updateContentHeight (currentY + nl.height) s.scroll
  { s with data := s.data ++ [line], lines := lines',
           complete := false,
           acc := if s.complete then 0 else s.acc,
           curLine := lines'.length - 1, curPart := 0, curChar := 0,
           scroll := forceScrollToBottom scroll1 }

/-- Build the rebuilt lines of resize: one fresh layout per existing line
from the stored dialogue data, stacked with the responsive spacing, with
visibility replayed from the typing cursor. -/
def buildResizeLines (env : Env)
    (data : List (Option (List Char) × Option (List Char)))
    (availW spacing : ℚ) (cur cp cc : Nat) :
    Nat → List DMLine → ℚ → List DMLine × ℚ
  | _, [], y => ([], y)
  | idx, _ :: ls, y =>
    let d := data.getD idx (none, none)
    let nl := mkDMLine env d availW
    let vis :=
      if idx < cur then updateLineVisibility nl.parts nl.objs nl.vis nl.parts.length 0
      else if idx = cur then updateLineVisibility nl.parts nl.objs nl.vis cp cc
      else updateLineVisibility nl.parts nl.objs nl.vis 0 0
    let line := { nl with y := y, vis := vis }
    let rest := buildResizeLines env data availW spacing cur cp cc (idx + 1) ls
      (y + nl.height + spacing)
    (line :: rest.1, rest.2)

/-- Embedding of DialogueManager.resize: update the mask, rebuild every
line at the new width replaying the cursor's visibility, update the scroll
content height, and scroll to the current line while typing. -/
def dmResize (env : Env) (w h : ℚ) (s : DMState) : DMState :=
  let mh := h - 2 * responsivePadding env w h
  let scroll0 := { s.scroll with maskHeight := mh }
  let scaleFactor := min 1 (max (8/10) (w / 800))
  let spacing := env.lineSpacing * scaleFactor
  let availW := w - env.dialoguePadding * 2
  let built := buildResizeLines env s.data availW spacing s.curLine s.curPart s.curChar
    0 s.lines 0
  let scroll1 := updateContentHeight built.2 scroll0
  let scroll2 :=
    if s.complete = false ∧ s.curLine < built.1.length then
      scrollToPosition ((built.1.getD s.curLine ⟨[], [], ⟨true, []⟩, 0, 0⟩).y) scroll1
    else scroll1
  { s with lines := built.1, scroll := scroll2, screenW := w, screenH := h }

/-- Reveal units of one segment: one per character of a text segment, one
for an emoji. -/
def partUnits : DialoguePartC → Nat
  | DialoguePartC.text c => c.length
  | DialoguePartC.emoji _ => 1
  | _ => 0

/-- Total reveal units of one line. -/
def lineUnits (l : DMLine) : Nat :=
  (l.parts.map partUnits).sum

/-- Units revealed inside one line by a cursor position: all segments
before the cursor, plus the shown characters of a text segment or the
all-or-nothing emoji at the cursor. -/
def revealedInLine (parts : List DialoguePartC) (pIdx cIdx : Nat) : Nat :=
  ((parts.take pIdx).map partUnits).sum +
    match parts.get? pIdx with
    | some (DialoguePartC.text c) => min cIdx c.length
    | some (DialoguePartC.emoji _) => if 0 < cIdx then 1 else 0
    | _ => 0

/-- Units revealed by the cursor over a line list. -/
def revAux (lines : List DMLine) (cl cp cc : Nat) : Nat :=
  ((lines.take cl).map lineUnits).sum +
    match lines.get? cl with
    | some l => revealedInLine l.parts cp cc
    | none => 0

/-- Number of fully or partially revealed units of a dialogue state. -/
def revealedUnits (s : DMState) : Nat :=
  revAux s.lines s.curLine s.curPart s.curChar

theorem updateContentHeight_pause (h : ℚ) (sc : ScrollState) :
    (updateContentHeight h sc).isScrollingPaused = sc.isScrollingPaused ∧
    (updateContentHeight h sc).hasPendingResume = sc.hasPendingResume := by
  unfold updateContentHeight scrollToBottom
  dsimp only
  split_ifs <;> exact ⟨rfl, rfl⟩

theorem forceScrollToBottom_pause (sc : ScrollState) :
    (forceScrollToBottom sc).isScrollingPaused = sc.isScrollingPaused := by
  unfold forceScrollToBottom scrollToBottom
  split_ifs <;> rfl

theorem forceScrollToBottom_target (sc : ScrollState) :
    (forceScrollToBottom sc).targetScrollY = -(getMaxScroll sc) ∧
    (forceScrollToBottom sc).dialogueContentHeight = sc.dialogueContentHeight ∧
    (forceScrollToBottom sc).maskHeight = sc.maskHeight := by
  unfold forceScrollToBottom scrollToBottom getMaxScroll
  simp

/-- C10: appendMessage leaves the user interaction pause flag of the
scroll controller exactly as it found it: the forced scroll to the bottom
saves the flag, clears it only for the duration of the scrollToBottom
call, and restores it afterwards, and the content height update never
touches it. -/
theorem appendMessage_preserves_pause (env : Env)
    (line : Option (List Char) × Option (List Char)) (s : DMState) :
    (dmAppend env line s).scroll.isScrollingPaused = s.scroll.isScrollingPaused := by
  show (forceScrollToBottom (updateContentHeight _ s.scroll)).isScrollingPaused =
    s.scroll.isScrollingPaused
  rw [forceScrollToBottom_pause]
  exact (updateContentHeight_pause _ s.scroll).1

/-- C5: appendMessage always leaves the typing complete flag false, points
the typing cursor at the new last line with segment and character indices
zero, grows the line list by one, and drives the scroll target to the new
bottom of content regardless of the pause state. -/
theorem appendMessage_spec (env : Env)
    (line : Option (List Char) × Option (List Char)) (s : DMState) :
    (dmAppend env line s).complete = false ∧
    (dmAppend env line s).curLine + 1 = (dmAppend env line s).lines.length ∧
    (dmAppend env line s).curPart = 0 ∧
    (dmAppend env line s).curChar = 0 ∧
    (dmAppend env line s).lines.length = s.lines.length + 1 ∧
    (dmAppend env line s).scroll.targetScrollY =
      -(max 0 ((dmAppend env line s).scroll.dialogueContentHeight -
        (dmAppend env line s).scroll.maskHeight)) := by
  refine ⟨rfl, ?_, rfl, rfl, by simp [dmAppend], ?_⟩
  · simp [dmAppend]
  · obtain ⟨ht, hc, hm⟩ := forceScrollToBottom_target (updateContentHeight _ s.scroll)
    show (forceScrollToBottom (updateContentHeight _ s.scroll)).targetScrollY =
      -(max 0 ((forceScrollToBottom (updateContentHeight _ s.scroll)).dialogueContentHeight -
        (forceScrollToBottom (updateContentHeight _ s.scroll)).maskHeight))
    rw [ht, hc, hm]
    rfl

/-! ### Typing rate accounting (C4) -/

theorem listModify_get? {α : Type} (f : α → α) :
    ∀ (n j : Nat) (l : List α),
      (listModify f n l).get? j = if j = n then (l.get? j).map f else l.get? j := by
  intro n j l
  induction l generalizing n j with
  | nil => simp [listModify]
  | cons a as ih =>
    match n, j with
    | 0, 0 => simp [listModify]
    | 0, j + 1 => simp [listModify]
    | n + 1, 0 => simp [listModify]
    | n + 1, j + 1 =>
      simp only [listModify, List.get?_cons_succ, ih n j]
      by_cases hj : j = n <;> simp [hj]

theorem map_listModify {α β : Type} (g : α → β) (f : α → α)
    (hgf : ∀ a, g (f a) = g a) :
    ∀ (n : Nat) (l : List α), (listModify f n l).map g = l.map g := by
  intro n l
  induction l generalizing n with
  | nil => cases n <;> rfl
  | cons a as ih =>
    match n with
    | 0 => simp [listModify, hgf]
    | n + 1 => simp [listModify, ih n]

theorem takeSum_succ {α : Type} (g : α → Nat) (l : List α) (i : Nat) :
    ((l.take (i + 1)).map g).sum =
      ((l.take i).map g).sum +
        (match l.get? i with
         | some x => g x
         | none => 0) := by
  rw [List.take_succ]
  rw [show l[i]? = l.get? i from (List.get?_eq_getElem? l i).symm]
  cases h : l.get? i <;> simp [h]

theorem revealedInLine_zero (ps : List DialoguePartC) : revealedInLine ps 0 0 = 0 := by
  unfold revealedInLine
  cases h : ps.get? 0 with
  | none => simp
  | some p => cases p <;> simp

theorem revealedInLine_past (ps : List DialoguePartC) (p c : Nat)
    (h : ps.get? p = none) : revealedInLine ps p c = (ps.map partUnits).sum := by
  unfold revealedInLine
  rw [h]
  have hlen : ps.length ≤ p := by
    by_contra hc
    push_neg at hc
    cases hg : ps.get? p with
    | none => rw [List.get?_eq_get hc] at h; cases h
    | some x => rw [h] at hg; cases hg
  rw [List.take_of_length_le hlen]
  simp

/-- The revealed unit count ignores visibility only mutations of the line
list. -/
theorem revAux_listModify (f : DMLine → DMLine)
    (hf : ∀ a, (f a).parts = a.parts) (n : Nat) (lines : List DMLine)
    (cl cp cc : Nat) :
    revAux (listModify f n lines) cl cp cc = revAux lines cl cp cc := by
  unfold revAux
  have h1 : (listModify f n lines).map lineUnits = lines.map lineUnits := by
    apply map_listModify
    intro a
    unfold lineUnits
    rw [hf]
  have h2 : ((listModify f n lines).take cl).map lineUnits =
      (lines.take cl).map lineUnits := by
    rw [List.map_take, List.map_take, h1]
  rw [h2, listModify_get? f n cl lines]
  by_cases hc : cl = n
  · rw [if_pos hc]
    cases hg : lines.get? cl with
    | none => simp
    | some l => simp [hf l]
  · rw [if_neg hc]

theorem revAux_take_line (lines : List DMLine) (cl : Nat) (l : DMLine)
    (h : lines.get? cl = some l) :
    ((lines.take (cl + 1)).map lineUnits).sum =
      ((lines.take cl).map lineUnits).sum + lineUnits l := by
  rw [takeSum_succ lineUnits lines cl, h]

theorem revAux_at (lines : List DMLine) (cl : Nat) (l : DMLine)
    (h : lines.get? cl = some l) (cp cc : Nat) :
    revAux lines cl cp cc =
      ((lines.take cl).map lineUnits).sum + revealedInLine l.parts cp cc := by
  unfold revAux
  rw [h]

theorem revAux_next_line (lines : List DMLine) (cl : Nat) (l : DMLine)
    (h : lines.get? cl = some l) :
    revAux lines (cl + 1) 0 0 =
      ((lines.take cl).map lineUnits).sum + lineUnits l := by
  unfold revAux
  rw [revAux_take_line lines cl l h]
  cases hg : lines.get? (cl + 1) with
  | none => simp
  | some l' => simp [revealedInLine_zero]

theorem typingLoopF_spec (slice : ℚ) (hs : 0 < slice) :
    ∀ (n : Nat) (a : ℚ) (s : DMState), 0 ≤ a → (Int.floor (a / slice)).toNat ≤ n →
      typingLoopF slice n a s =
        (a - slice * (Int.floor (a / slice) : ℚ), dmTick^[(Int.floor (a / slice)).toNat] s) := by
  intro n
  induction n with
  | zero =>
    intro a s ha hn
    have hnn : 0 ≤ Int.floor (a / slice) :=
      Int.floor_nonneg.mpr (div_nonneg ha (le_of_lt hs))
    have h0 : Int.floor (a / slice) = 0 := by omega
    rw [h0]
    simp [typingLoopF]
  | succ n ih =>
    intro a s ha hn
    by_cases hcase : slice ≤ a
    · have h1le : 1 ≤ Int.floor (a / slice) := by
        rw [Int.le_floor]
        push_cast
        rw [le_div_iff₀ hs]
        linarith
      have hfl : Int.floor ((a - slice) / slice) = Int.floor (a / slice) - 1 := by
        rw [sub_div, div_self (ne_of_gt hs)]
        exact_mod_cast Int.floor_sub_int (a / slice) 1
      have hn' : (Int.floor ((a - slice) / slice)).toNat ≤ n := by
        rw [hfl]; omega
      have ih' := ih (a - slice) (dmTick s) (by linarith) hn'
      simp only [typingLoopF]
      rw [if_pos ⟨hs, hcase⟩, ih']
      have htn : (Int.floor (a / slice)).toNat = (Int.floor ((a - slice) / slice)).toNat + 1 := by
        rw [hfl]; omega
      rw [htn]
      rw [Function.iterate_succ_apply]
      have hval : a - slice - slice * (Int.floor ((a - slice) / slice) : ℚ) =
          a - slice * (Int.floor (a / slice) : ℚ) := by
        rw [hfl]
        push_cast
        ring
      rw [hval]
    · push_neg at hcase
      have h0 : Int.floor (a / slice) = 0 :=
        Int.floor_eq_zero_iff.mpr ⟨div_nonneg ha hs.le, by rw [div_lt_one hs]; linarith⟩
      simp only [typingLoopF]
      rw [if_neg (fun hand => absurd hand.2 (not_le.mpr hcase))]
      rw [h0]
      simp

theorem get?_some_lt {α : Type} {l : List α} {n : Nat} {a : α}
    (h : l.get? n = some a) : n < l.length := by
  by_contra hge
  push_neg at hge
  rw [List.get?_eq_none.mpr hge] at h
  cases h

theorem revealedUnits_mk (d : List (Option (List Char) × Option (List Char)))
    (ls : List DMLine) (cl cp cc : Nat) (a : ℚ) (co : Bool) (sc : ScrollState)
    (w h : ℚ) :
    revealedUnits (DMState.mk d ls cl cp cc a co sc w h) = revAux ls cl cp cc := rfl

theorem revAux_modVis (v : DMLine → VisState) (n : Nat) (lines : List DMLine)
    (cl cp cc : Nat) :
    revAux (listModify (fun l => { l with vis := v l }) n lines) cl cp cc =
      revAux lines cl cp cc :=
  revAux_listModify (fun l => { l with vis := v l }) (fun _ => rfl) n lines cl cp cc

theorem revealedInLine_at_text (ps : List DialoguePartC) (p : Nat) (c : List Char)
    (hp : ps.get? p = some (DialoguePartC.text c)) (k : Nat) :
    revealedInLine ps p k = ((ps.take p).map partUnits).sum + min k c.length := by
  unfold revealedInLine
  rw [hp]

theorem revealedInLine_at_emoji (ps : List DialoguePartC) (p : Nat) (n : List Char)
    (hp : ps.get? p = some (DialoguePartC.emoji n)) (k : Nat) :
    revealedInLine ps p k =
      ((ps.take p).map partUnits).sum + (if 0 < k then 1 else 0) := by
  unfold revealedInLine
  rw [hp]

theorem revealedInLine_peek_le (ps : List DialoguePartC) (p k : Nat) (hk : k ≤ 1) :
    revealedInLine ps p k ≤ ((ps.take p).map partUnits).sum + 1 ∧
    ((ps.take p).map partUnits).sum ≤ revealedInLine ps p k := by
  unfold revealedInLine
  cases hg : ps.get? p with
  | none =>
    dsimp only
    omega
  | some q =>
    cases q with
    | text c =>
      dsimp only
      rw [inf_eq_min]
      have h1 : min k c.length ≤ k := min_le_left _ _
      omega
    | emoji n =>
      dsimp only
      split_ifs <;> omega
    | avatar a =>
      dsimp only
      omega
    | missingEmoji a =>
      dsimp only
      omega

/-- Each advanceTyping call reveals between zero and two units: zero on a
segment or line boundary, one for a character, and an emoji reveal can
additionally expose the first unit of the following segment because the
visibility update is applied with character index one on the next
segment. -/
theorem dmTick_revealed (t : DMState) :
    revealedUnits t ≤ revealedUnits (dmTick t) ∧
    revealedUnits (dmTick t) ≤ revealedUnits t + 2 := by
  have hrev0 : revealedUnits t = revAux t.lines t.curLine t.curPart t.curChar := rfl
  unfold dmTick
  by_cases hc : t.complete = true
  · rw [if_pos hc]
    exact ⟨le_refl _, Nat.le_add_right _ 2⟩
  · rw [if_neg hc]
    split
    · exact ⟨le_refl _, Nat.le_add_right _ 2⟩
    next line hl =>
      have hrt : revAux t.lines t.curLine t.curPart t.curChar =
          ((t.lines.take t.curLine).map lineUnits).sum +
            revealedInLine line.parts t.curPart t.curChar :=
        revAux_at t.lines t.curLine line hl t.curPart t.curChar
      split
      next hp =>
        have hfull : revealedInLine line.parts t.curPart t.curChar =
            (line.parts.map partUnits).sum :=
          revealedInLine_past line.parts _ _ hp
        have hlu0 : lineUnits line = (line.parts.map partUnits).sum := rfl
        dsimp only
        by_cases hlen : t.lines.length ≤ t.curLine + 1
        · rw [if_pos hlen, hrev0, revealedUnits_mk,
            revAux_next_line t.lines t.curLine line hl, hrt, hfull, hlu0]
          omega
        · rw [if_neg hlen, hrev0, revealedUnits_mk, revAux_modVis,
            revAux_next_line t.lines t.curLine line hl, hrt, hfull, hlu0]
          omega
      next part hp =>
        have hplt : t.curPart < line.parts.length := get?_some_lt hp
        have htakep : ((line.parts.take (t.curPart + 1)).map partUnits).sum =
            ((line.parts.take t.curPart).map partUnits).sum + partUnits part := by
          rw [takeSum_succ partUnits line.parts t.curPart, hp]
        cases part with
        | text c =>
          have hpu : partUnits (DialoguePartC.text c) = c.length := rfl
          dsimp only
          by_cases hcc : c.length < t.curChar + 1
          · have hmc : min t.curChar c.length = c.length := min_eq_right (by omega)
            rw [if_pos hcc]
            dsimp only
            by_cases hfin : line.parts.length ≤ t.curPart + 1
            · rw [if_pos hfin]
              have hlu : lineUnits line =
                  ((line.parts.take (t.curPart + 1)).map partUnits).sum := by
                unfold lineUnits
                rw [List.take_of_length_le hfin]
              by_cases hcompl : t.lines.length ≤ t.curLine + 1
              · rw [if_pos hcompl, hrev0, revealedUnits_mk, revAux_modVis,
                  revAux_next_line t.lines t.curLine line hl, hrt,
                  revealedInLine_at_text line.parts t.curPart c hp t.curChar, hmc]
                omega
              · rw [if_neg hcompl, hrev0, revealedUnits_mk, revAux_modVis,
                  revAux_next_line t.lines t.curLine line hl, hrt,
                  revealedInLine_at_text line.parts t.curPart c hp t.curChar, hmc]
                omega
            · rw [if_neg hfin, hrev0, revealedUnits_mk, revAux_modVis,
                revAux_at t.lines t.curLine line hl (t.curPart + 1) 0, hrt,
                revealedInLine_at_text line.parts t.curPart c hp t.curChar, hmc]
              have hpk := revealedInLine_peek_le line.parts (t.curPart + 1) 0
                (by omega)
              omega
          · have h1 : min t.curChar c.length = t.curChar := min_eq_left (by omega)
            have h2 : min (t.curChar + 1) c.length = t.curChar + 1 :=
              min_eq_left (by omega)
            rw [if_neg hcc]
            dsimp only
            rw [if_neg (show ¬ line.parts.length ≤ t.curPart by omega),
              hrev0, revealedUnits_mk, revAux_modVis,
              revAux_at t.lines t.curLine line hl t.curPart (t.curChar + 1), hrt,
              revealedInLine_at_text line.parts t.curPart c hp t.curChar,
              revealedInLine_at_text line.parts t.curPart c hp (t.curChar + 1),
              h1, h2]
            omega
        | emoji n =>
          have hpu : partUnits (DialoguePartC.emoji n) = 1 := rfl
          dsimp only
          by_cases hfin : line.parts.length ≤ t.curPart + 1
          · rw [if_pos hfin]
            have hlu : lineUnits line =
                ((line.parts.take (t.curPart + 1)).map partUnits).sum := by
              unfold lineUnits
              rw [List.take_of_length_le hfin]
            by_cases hcompl : t.lines.length ≤ t.curLine + 1
            · rw [if_pos hcompl, hrev0, revealedUnits_mk, revAux_modVis,
                revAux_next_line t.lines t.curLine line hl, hrt,
                revealedInLine_at_emoji line.parts t.curPart n hp t.curChar]
              split_ifs <;> omega
            · rw [if_neg hcompl, hrev0, revealedUnits_mk, revAux_modVis,
                revAux_next_line t.lines t.curLine line hl, hrt,
                revealedInLine_at_emoji line.parts t.curPart n hp t.curChar]
              split_ifs <;> omega
          · rw [if_neg hfin, hrev0, revealedUnits_mk, revAux_modVis,
              revAux_at t.lines t.curLine line hl (t.curPart + 1) 1, hrt,
              revealedInLine_at_emoji line.parts t.curPart n hp t.curChar]
            have hpk := revealedInLine_peek_le line.parts (t.curPart + 1) 1
              (by omega)
            split_ifs <;> omega
        | avatar a =>
          dsimp only
          rw [if_neg (show ¬ line.parts.length ≤ t.curPart by omega),
            hrev0, revealedUnits_mk, revAux_modVis]
          omega
        | missingEmoji a =>
          dsimp only
          rw [if_neg (show ¬ line.parts.length ≤ t.curPart by omega),
            hrev0, revealedUnits_mk, revAux_modVis]
          omega

theorem revealedUnits_iterate (k : Nat) (t : DMState) :
    revealedUnits t ≤ revealedUnits (dmTick^[k] t) ∧
    revealedUnits (dmTick^[k] t) ≤ revealedUnits t + 2 * k := by
  induction k with
  | zero => simp
  | succ n ih =>
    rw [Function.iterate_succ_apply']
    have h := dmTick_revealed (dmTick^[n] t)
    omega

theorem dmUpdate_ticks (env : Env) (δ : ℚ) (s : DMState) (k : Nat)
    (hsp : 0 < env.typingSpeed) (hacc : 0 ≤ s.acc + δ) (hc : s.complete = false)
    (hk : (Int.floor ((s.acc + δ) * env.typingSpeed / 1000)).toNat = k) :
    revealedUnits (dmUpdate env δ s) = revealedUnits (dmTick^[k] s) := by
  have hslice : (0:ℚ) < 1000 / env.typingSpeed := div_pos (by norm_num) hsp
  have hfl : Int.floor ((s.acc + δ) / (1000 / env.typingSpeed)) =
      Int.floor ((s.acc + δ) * env.typingSpeed / 1000) := by
    rw [div_div_eq_mul_div]
  unfold dmUpdate
  rw [if_neg (show ¬ s.complete = true by simp [hc])]
  dsimp only
  unfold typingLoop
  rw [typingLoopF_spec (1000 / env.typingSpeed) hslice
    ((Int.floor ((s.acc + δ) / (1000 / env.typingSpeed))).toNat)
    (s.acc + δ) s hacc (le_refl _)]
  dsimp only
  rw [hfl, hk]
  rfl

/-- C4: what actually holds for DialogueManager.update while typing is
incomplete: with a positive typing speed and nonnegative accumulated time
T = acc + deltaMs, update performs exactly floor(charsPerSecond * T / 1000)
advanceTyping ticks, and the count of fully-or-partially revealed units
(an emoji counting as one) is monotonically non-decreasing, growing by at
most two units per tick.  The spec's claim that the revealed count equals
floor(charsPerSecond * T / 1000) fails: a tick that crosses a segment
boundary reveals nothing, and an emoji tick can reveal two units. -/
theorem typing_progress (env : Env) (δ : ℚ) (s : DMState) (k : Nat)
    (hsp : 0 < env.typingSpeed) (hacc : 0 ≤ s.acc + δ) (hc : s.complete = false)
    (hk : (Int.floor ((s.acc + δ) * env.typingSpeed / 1000)).toNat = k) :
    revealedUnits (dmUpdate env δ s) = revealedUnits (dmTick^[k] s) ∧
    revealedUnits s ≤ revealedUnits (dmUpdate env δ s) ∧
    revealedUnits (dmUpdate env δ s) ≤ revealedUnits s + 2 * k := by
  have h1 := dmUpdate_ticks env δ s k hsp hacc hc hk
  have h2 := revealedUnits_iterate k s
  refine ⟨h1, ?_, ?_⟩ <;> omega

/-- A one-line dialogue with text "a:x:b" typed at 1000 characters per
second. -/
def envTick : Env :=
  ⟨fun _ => 25, fun _ => 20, 18, 20, 24, 28, true, fun _ => true, fun _ => true,
   8, 20, 1000⟩

def dataTick : List (Option (List Char) × Option (List Char)) :=
  [(some ['A'], some ['a', ':', 'x', ':', 'b'])]

def sTick : DMState := dmInit envTick dataTick 400 300

/-- C4 witness instance of the corrected update law at the concrete
one-line dialogue. -/
theorem typing_progress_witness :
    revealedUnits (dmUpdate envTick 4 sTick) = revealedUnits (dmTick^[4] sTick) ∧
    revealedUnits sTick ≤ revealedUnits (dmUpdate envTick 4 sTick) ∧
    revealedUnits (dmUpdate envTick 4 sTick) ≤ revealedUnits sTick + 2 * 4 :=
  typing_progress envTick 4 sTick 4 (by norm_num [envTick])
    (by rw [show sTick.acc = 0 from rfl]; norm_num) rfl
    (by rw [show sTick.acc = 0 from rfl, show envTick.typingSpeed = 1000 from rfl]
        norm_num
        decide)

/-- C4 counterexample to the spec's exact-floor claim: after one update
with 4 ms at 1000 chars/s over the parsed line [text "a", emoji "x",
text "b"], four ticks run but only three units are revealed (the tick
that finishes the "a" segment reveals nothing, and the emoji tick reveals
two), so the revealed count differs from floor(charsPerSecond * T / 1000)
= 4. -/
theorem typing_floor_counterexample :
    revealedUnits (dmUpdate envTick 4 sTick) ≠
      (Int.floor ((sTick.acc + 4) * envTick.typingSpeed / 1000)).toNat := by
  have hk : (Int.floor ((sTick.acc + 4) * envTick.typingSpeed / 1000)).toNat = 4 := by
    rw [show sTick.acc = 0 from rfl, show envTick.typingSpeed = 1000 from rfl]
    norm_num
    decide
  have h1 : revealedUnits (dmUpdate envTick 4 sTick) =
      revealedUnits (dmTick^[4] sTick) := by
    apply dmUpdate_ticks
    · rw [show envTick.typingSpeed = 1000 from rfl]
      norm_num
    · rw [show sTick.acc = 0 from rfl]
      norm_num
    · rfl
    · exact hk
  rw [h1, hk]
  decide

theorem mkDMLine_parts (env : Env) (d : Option (List Char) × Option (List Char))
    (aw : ℚ) : (mkDMLine env d aw).parts = parseLine (falsyOr d.2 []) := rfl

theorem mkDMLine_objs (env : Env) (d : Option (List Char) × Option (List Char))
    (aw : ℚ) :
    (mkDMLine env d aw).objs = (parseLine (falsyOr d.2 [])).map (objKindFor env) := rfl

theorem mkDMLine_vis (env : Env) (d : Option (List Char) × Option (List Char))
    (aw : ℚ) : (mkDMLine env d aw).vis = initVis env (parseLine (falsyOr d.2 [])) := rfl

/-- Canonical shape of the tracked lines of a dialogue state: every line
holds the parse of its stored dialogue text, one object per segment, and
the visibility the cursor dictates (full for lines before the cursor, the
cursor's exact progress on its line, nothing on later lines). -/
def dmWFAux (env : Env) (data : List (Option (List Char) × Option (List Char)))
    (cur cp cc : Nat) : Nat → List DMLine → Bool
  | _, [] => true
  | idx, l :: ls =>
    decide (l.parts = parseLine (falsyOr (data.getD idx (none, none)).2 [])) &&
    decide (l.objs =
      (parseLine (falsyOr (data.getD idx (none, none)).2 [])).map (objKindFor env)) &&
    decide (l.vis =
      (if idx < cur then
        visFor env (parseLine (falsyOr (data.getD idx (none, none)).2 []))
          (parseLine (falsyOr (data.getD idx (none, none)).2 [])).length 0
      else if idx = cur then
        visFor env (parseLine (falsyOr (data.getD idx (none, none)).2 [])) cp cc
      else
        visFor env (parseLine (falsyOr (data.getD idx (none, none)).2 [])) 0 0)) &&
    dmWFAux env data cur cp cc (idx + 1) ls

def dmWF (env : Env) (s : DMState) : Bool :=
  dmWFAux env s.data s.curLine s.curPart s.curChar 0 s.lines

theorem buildResizeLines_vis (env : Env)
    (data : List (Option (List Char) × Option (List Char)))
    (availW spacing : ℚ) (cur cp cc : Nat) :
    ∀ (ls : List DMLine) (idx : Nat) (y : ℚ),
      dmWFAux env data cur cp cc idx ls = true →
      ∀ j,
        ((buildResizeLines env data availW spacing cur cp cc idx ls y).1.get? j).map
            DMLine.vis =
          (ls.get? j).map DMLine.vis := by
  intro ls
  induction ls with
  | nil =>
    intro idx y hwf j
    rfl
  | cons l ls ih =>
    intro idx y hwf j
    unfold dmWFAux at hwf
    simp only [Bool.and_eq_true, decide_eq_true_eq] at hwf
    obtain ⟨⟨⟨hp, ho⟩, hv⟩, hrest⟩ := hwf
    cases j with
    | zero =>
      show some _ = some l.vis
      rw [hv]
      rfl
    | succ n =>
      exact ih (idx + 1)
        (y + (mkDMLine env (data.getD idx (none, none)) availW).height + spacing)
        hrest n

theorem buildResizeLines_name (env : Env)
    (data : List (Option (List Char) × Option (List Char)))
    (availW spacing : ℚ) (cur cp cc : Nat) :
    ∀ (ls : List DMLine) (idx : Nat) (y : ℚ) (j : Nat) (l : DMLine),
      (buildResizeLines env data availW spacing cur cp cc idx ls y).1.get? j = some l →
      l.vis.nameVisible = true := by
  intro ls
  induction ls with
  | nil =>
    intro idx y j l h
    cases h
  | cons a as ih =>
    intro idx y j l h
    cases j with
    | zero =>
      simp only [buildResizeLines, List.get?, Option.some.injEq] at h
      subst h
      dsimp only
      split_ifs <;> rfl
    | succ n =>
      exact ih (idx + 1)
        (y + (mkDMLine env (data.getD idx (none, none)) availW).height + spacing) n l h

/-- C1 (corrected): for a dialogue state in canonical shape (every line
holding the parse of its stored text with the cursor's visibility),
resize rebuilds every line and replays the segment reveal state exactly:
the visibility state of each line (shown flags and shown text of every
segment) is identical before and after the resize.  The claim that lines
after the cursor end up entirely hidden including their speaker label is
false: updateLineVisibility unconditionally shows the speaker label, so
every rebuilt line's label is visible. -/
theorem resize_replays_visibility (env : Env) (w h : ℚ) (s : DMState)
    (hwf : dmWF env s = true) :
    (∀ i, ((dmResize env w h s).lines.get? i).map DMLine.vis =
        (s.lines.get? i).map DMLine.vis) ∧
    (∀ i l, (dmResize env w h s).lines.get? i = some l →
        l.vis.nameVisible = true) := by
  constructor
  · intro i
    exact buildResizeLines_vis env s.data (w - env.dialoguePadding * 2)
      (env.lineSpacing * min 1 (max (8 / 10) (w / 800))) s.curLine s.curPart
      s.curChar s.lines 0 0 hwf i
  · intro i l hl
    exact buildResizeLines_name env s.data (w - env.dialoguePadding * 2)
      (env.lineSpacing * min 1 (max (8 / 10) (w / 800))) s.curLine s.curPart
      s.curChar s.lines 0 0 i l hl

/-- A two line dialogue, typing one tick into the first line. -/
def dataResize : List (Option (List Char) × Option (List Char)) :=
  [(some ['A'], some ['a', 'b']), (some ['B'], some ['c', 'd'])]

def sResize : DMState := dmTick (dmInit envTick dataResize 400 300)

/-- C1 witness: the corrected resize law at a concrete two line dialogue
with the cursor one character into the first line. -/
theorem resize_replays_visibility_witness :
    dmWF envTick sResize = true ∧
    ((∀ i, ((dmResize envTick 320 240 sResize).lines.get? i).map DMLine.vis =
        (sResize.lines.get? i).map DMLine.vis) ∧
    (∀ i l, (dmResize envTick 320 240 sResize).lines.get? i = some l →
        l.vis.nameVisible = true)) :=
  ⟨by decide, resize_replays_visibility envTick 320 240 sResize (by decide)⟩

/-- C1 counterexample to the entirely-hidden part of the claim: with the
typing cursor on line 0 and typing incomplete, the line at index 1 -- a
line strictly after the cursor -- still has a visible speaker label right
after resize. -/
theorem resize_hidden_label_counterexample :
    sResize.curLine = 0 ∧ sResize.complete = false ∧
    ((dmResize envTick 320 240 sResize).lines.get? 1).map
        (fun l => l.vis.nameVisible) = some true := by
  refine ⟨rfl, rfl, ?_⟩
  decide

end MagicWords
